import Mathlib

/-!
Verification of the 24-puzzle solver (BFS and depth-limited DFS).

The definitions below are a shallow embedding of `HW1FinalSolution.py`:
board states are lists of 25 naturals, the two search loops are modelled
with explicit fuel (Python's `while` loops), and the statistics dictionary
becomes the `SearchStats` structure.  Wall-clock time limits and memory
statistics are outside the embedding.
-/

namespace Puzzle

/-- A board state: the Python code uses a 25-tuple of ints; 0 is the blank. -/
abbrev State := List Nat

/-- `SIZE = 5` (5x5 board). -/
def SIZE : Nat := 5

/-- `N_TILES = SIZE * SIZE = 25`. -/
def N_TILES : Nat := SIZE * SIZE

/-- `GOAL_STATE = tuple(range(1, N_TILES)) + (0,)`. -/
def GOAL_STATE : State := (List.range' 1 24) ++ [0]

/-- A valid board state holds each of 0..24 exactly once
(permutation of `range 25`). -/
def ValidState (s : State) : Prop := s.Perm (List.range 25)

/-- Swap the entries at positions `i` and `j`
(`new_state[zi], new_state[ni] = new_state[ni], new_state[zi]`). -/
def swapAt (l : List Nat) (i j : Nat) : List Nat :=
  (l.set i (l.getD j 0)).set j (l.getD i 0)

/-- The in-bounds move targets for a blank at index `zi`, in the source's
fixed order: up (`-SIZE`), down (`+SIZE`), left (`-1`), right (`+1`). -/
def moveTargets (zi : Nat) : List Nat :=
  (if 0 < zi / SIZE then [zi - SIZE] else []) ++
  (if zi / SIZE < SIZE - 1 then [zi + SIZE] else []) ++
  (if 0 < zi % SIZE then [zi - 1] else []) ++
  (if zi % SIZE < SIZE - 1 then [zi + 1] else [])

/-- `get_neighbors(state)`: all states reached by moving the blank once. -/
def get_neighbors (state : State) : List State :=
  (moveTargets (state.indexOf 0)).map (fun ni => swapAt state (state.indexOf 0) ni)

/-- Inversion count of a blank-free array: for each head element, the number
of later, strictly smaller elements (the inner loop of the source). -/
def invAux : List Nat → Nat
  | [] => 0
  | a :: t => t.countP (fun b => decide (b < a)) + invAux t

/-- `inversion_count(state)`: inversions of the sequence with the blank
removed (`arr = [x for x in state if x != 0]`). -/
def inversion_count (state : State) : Nat :=
  invAux (state.filter (fun x => decide (x ≠ 0)))

/-- The count described by the spec's words: pairs of positions `i < j`
holding non-blank tiles with the tile at `i` larger than the tile at `j`. -/
def pairInversions (s : List Nat) : Nat :=
  ((List.range s.length).map (fun i =>
    ((List.range s.length).filter (fun j =>
      decide (i < j ∧ s.getD i 0 ≠ 0 ∧ s.getD j 0 ≠ 0 ∧ s.getD j 0 < s.getD i 0))).length)).sum

/-- `is_solvable_5x5(state)`: solvable iff the inversion count is even. -/
def is_solvable_5x5 (state : State) : Bool :=
  decide (inversion_count state % 2 = 0)

/-- Move-adjacency of two board indices: same row and neighbouring columns,
or same column and neighbouring rows. -/
def Adj (i j : Nat) : Prop :=
  (i / SIZE = j / SIZE ∧ (j = i + 1 ∨ i = j + 1)) ∨
  (i % SIZE = j % SIZE ∧ (j = i + SIZE ∨ i = j + SIZE))

/-- The four move directions, in the source's fixed order. -/
inductive Dir where
  | up
  | down
  | left
  | right
deriving DecidableEq, Repr

/-- The fixed direction order used by `get_neighbors`. -/
def dirList : List Dir := [Dir.up, Dir.down, Dir.left, Dir.right]

/-- Whether a move of the blank at `zi` in direction `d` stays in bounds. -/
def dirInBounds (zi : Nat) : Dir → Bool
  | Dir.up => decide (0 < zi / SIZE)
  | Dir.down => decide (zi / SIZE < SIZE - 1)
  | Dir.left => decide (0 < zi % SIZE)
  | Dir.right => decide (zi % SIZE < SIZE - 1)

/-- Target index of a move of the blank at `zi` in direction `d`. -/
def dirTarget (zi : Nat) : Dir → Nat
  | Dir.up => zi - SIZE
  | Dir.down => zi + SIZE
  | Dir.left => zi - 1
  | Dir.right => zi + 1

/-- `n` moves of the blank lead from `s` to `t`. -/
inductive ReachN : Nat → State → State → Prop where
  | refl (s : State) : ReachN 0 s s
  | step {n : Nat} {s t u : State} :
      ReachN n s t → u ∈ get_neighbors t → ReachN (n + 1) s u

instance : DecidablePred ValidState := fun s =>
  List.decidablePerm s (List.range 25)

/-- The statistics dictionary shared by both searches.  Timing and memory
fields of the source are outside the embedding. -/
structure SearchStats where
  expanded : Nat
  generated : Nat
  max_frontier : Nat
  found : Bool
  solution_moves : Option Nat
  stopped_reason : Option String
deriving DecidableEq, Repr

/-- The statistics record as seeded at the start of either search
(`generated = 1` accounts for the start node). -/
def initStats : SearchStats :=
  { expanded := 0, generated := 1, max_frontier := 0,
    found := false, solution_moves := none, stopped_reason := none }

/-- The `stopped_reason` string set when the node limit triggers. -/
def nodeLimitMsg (lim : Nat) : String :=
  "Node limit reached (" ++ toString lim ++ " generated)"

/-- Lookup in the BFS parent map (Python's `parent` dict, with the newest
binding at the front; keys are inserted at most once). -/
def alookup (p : List (State × Option State)) (s : State) : Option (Option State) :=
  match p with
  | [] => none
  | (k, v) :: rest => if k = s then some v else alookup rest s

/-- The keys of the BFS parent map. -/
def keysOf (p : List (State × Option State)) : List State := p.map Prod.fst

/-- BFS path reconstruction: follow parent links from `cur` back to the root
(Python's `while cur is not None` loop), with explicit fuel. -/
def reconstruct (parent : List (State × Option State)) : Nat → State → List State
  | 0, _ => []
  | fuel + 1, cur =>
    match alookup parent cur with
    | none => [cur]
    | some none => [cur]
    | some (some p) => cur :: reconstruct parent fuel p

/-- The BFS expansion inner loop (`for neighbor in get_neighbors(state)`):
unseen neighbors are recorded in the parent map and enqueued; when the
generated count reaches the node limit the queue is discarded and the
remaining neighbors are skipped (`queue.clear()` + `break`). -/
def expandLoop (node_limit : Option Nat) (state : State) :
    List State → List State → List (State × Option State) → SearchStats →
    List State × List (State × Option State) × SearchStats
  | [], queue, parent, stats => (queue, parent, stats)
  | n :: rest, queue, parent, stats =>
    if (alookup parent n).isSome then
      expandLoop node_limit state rest queue parent stats
    else
      let parent' := (n, some state) :: parent
      let queue' := queue ++ [n]
      let stats' := { stats with generated := stats.generated + 1 }
      match node_limit with
      | some lim =>
        if lim ≤ stats'.generated then
          ([], parent', { stats' with stopped_reason := some (nodeLimitMsg lim) })
        else
          expandLoop node_limit state rest queue' parent' stats'
      | none => expandLoop node_limit state rest queue' parent' stats'

/-- The BFS main loop (`while queue`), with explicit fuel standing for the
source's unbounded iteration. -/
def bfsLoop (node_limit : Option Nat) :
    Nat → List State → List (State × Option State) → SearchStats →
    Option (List State) × SearchStats
  | 0, _, _, stats => (none, stats)
  | fuel + 1, queue, parent, stats =>
    match queue with
    | [] => (none, stats)
    | state :: rest =>
      let stats1 := { stats with max_frontier := max stats.max_frontier (rest.length + 1) }
      if state = GOAL_STATE then
        let path := (reconstruct parent (parent.length + 1) state).reverse
        (some path, { stats1 with found := true, solution_moves := some (path.length - 1) })
      else
        let stats2 := { stats1 with expanded := stats1.expanded + 1 }
        match expandLoop node_limit state (get_neighbors state) rest parent stats2 with
        | (queue', parent', stats') => bfsLoop node_limit fuel queue' parent' stats'

/-- `bfs(start, node_limit)`: queue seeded with `start`, parent map seeded
with `{start: None}`, `generated = 1`. -/
def bfs (start : State) (node_limit : Option Nat) (fuel : Nat) :
    Option (List State) × SearchStats :=
  bfsLoop node_limit fuel [start] [(start, none)] initStats

/-- A DFS search node: state, parent index into the node list, and depth. -/
structure DNode where
  state : State
  parent : Option Nat
  depth : Nat
deriving DecidableEq, Repr

instance : Inhabited DNode := ⟨⟨[], none, 0⟩⟩

/-- `is_on_current_path(nodes, node_index, candidate_state)`: walk the parent
chain from `i` looking for `cand`, with explicit fuel for the `while` loop. -/
def is_on_current_path (nodes : List DNode) : Nat → Nat → State → Bool
  | 0, _, _ => false
  | fuel + 1, i, cand =>
    let nd := nodes.getD i default
    if nd.state = cand then true
    else
      match nd.parent with
      | none => false
      | some p => is_on_current_path nodes fuel p cand

/-- The states on the chain of ancestors from node `i` back to the root,
inclusive (current node first), with explicit fuel. -/
def ancestorStates (nodes : List DNode) : Nat → Nat → List State
  | 0, _ => []
  | fuel + 1, i =>
    let nd := nodes.getD i default
    nd.state ::
      (match nd.parent with
       | none => []
       | some p => ancestorStates nodes fuel p)

/-- The DFS expansion inner loop: neighbors already on the current
root-to-node path are skipped; fresh neighbors become new nodes pushed on
the stack; reaching the node limit discards the stack and stops. -/
def dfsExpand (node_limit : Option Nat) (node_idx depth : Nat) :
    List State → List DNode → List Nat → SearchStats →
    List DNode × List Nat × SearchStats
  | [], nodes, stack, stats => (nodes, stack, stats)
  | n :: rest, nodes, stack, stats =>
    if is_on_current_path nodes nodes.length node_idx n then
      dfsExpand node_limit node_idx depth rest nodes stack stats
    else
      let nodes' := nodes ++ [⟨n, some node_idx, depth + 1⟩]
      let stack' := (nodes'.length - 1) :: stack
      let stats' := { stats with generated := stats.generated + 1 }
      match node_limit with
      | some lim =>
        if lim ≤ stats'.generated then
          (nodes', [], { stats' with stopped_reason := some (nodeLimitMsg lim) })
        else
          dfsExpand node_limit node_idx depth rest nodes' stack' stats'
      | none => dfsExpand node_limit node_idx depth rest nodes' stack' stats'

/-- The DFS main loop (`while stack`): the stack top is the list head,
matching Python's push/pop at the list end. -/
def dfsLoop (node_limit : Option Nat) (depth_limit : Nat) :
    Nat → List DNode → List Nat → SearchStats →
    Option (List State) × SearchStats
  | 0, _, _, stats => (none, stats)
  | fuel + 1, nodes, stack, stats =>
    match stack with
    | [] => (none, stats)
    | node_idx :: rest =>
      let stats1 := { stats with max_frontier := max stats.max_frontier (rest.length + 1) }
      let nd := nodes.getD node_idx default
      if nd.state = GOAL_STATE then
        let path := (ancestorStates nodes nodes.length node_idx).reverse
        (some path, { stats1 with found := true, solution_moves := some (path.length - 1) })
      else if depth_limit ≤ nd.depth then
        dfsLoop node_limit depth_limit fuel nodes rest stats1
      else
        let stats2 := { stats1 with expanded := stats1.expanded + 1 }
        match dfsExpand node_limit node_idx nd.depth (get_neighbors nd.state) nodes rest stats2 with
        | (nodes', stack', stats') => dfsLoop node_limit depth_limit fuel nodes' stack' stats'

/-- `dfs_depth_limited(start, depth_limit, node_limit)`: node list seeded
with the root, stack seeded with index 0, `generated = 1`. -/
def dfs_depth_limited (start : State) (depth_limit : Nat) (node_limit : Option Nat)
    (fuel : Nat) : Option (List State) × SearchStats :=
  dfsLoop node_limit depth_limit fuel [⟨start, none, 0⟩] [0] initStats

/-- Strip leading and trailing whitespace from a character list
(Python's `str.strip()`). -/
def trimChars (cs : List Char) : List Char :=
  ((cs.dropWhile Char.isWhitespace).reverse.dropWhile Char.isWhitespace).reverse

/-- Split a character list at every comma (Python's `str.split(",")`). -/
def splitCommas : List Char → List (List Char)
  | [] => [[]]
  | c :: rest =>
    if c = ',' then [] :: splitCommas rest
    else
      match splitCommas rest with
      | [] => [[c]]
      | t :: ts => (c :: t) :: ts

/-- The comma-separated tokens of the input after stripping whitespace and
dropping empty tokens (`[p.strip() for p in text.strip().split(",") if p.strip() != ""]`). -/
def tokensOf (text : List Char) : List (List Char) :=
  ((splitCommas (trimChars text)).map trimChars).filter (fun p => decide (p ≠ []))

/-- Numeric value of a list of decimal digit characters. -/
def digitsVal (cs : List Char) : Nat :=
  cs.foldl (fun a c => 10 * a + (c.toNat - '0'.toNat)) 0

/-- Model of Python's `int(p)` on a stripped token: an optional sign followed
by one or more decimal digits; anything else raises `ValueError`. -/
def parseIntTok (s : List Char) : Option Int :=
  match s with
  | [] => none
  | '+' :: rest =>
    if rest ≠ [] ∧ rest.all Char.isDigit then some (Int.ofNat (digitsVal rest)) else none
  | '-' :: rest =>
    if rest ≠ [] ∧ rest.all Char.isDigit then some (-(Int.ofNat (digitsVal rest))) else none
  | cs =>
    if cs.all Char.isDigit then some (Int.ofNat (digitsVal cs)) else none

/-- `[int(p) for p in parts]`: all tokens parse, or the whole list fails. -/
def parseAll : List (List Char) → Option (List Int)
  | [] => some []
  | p :: rest =>
    match parseIntTok p, parseAll rest with
    | some v, some vs => some (v :: vs)
    | _, _ => none

/-- The required tile values `0..24` as integers (`set(range(N_TILES))`). -/
def rangeInts : List Int := (List.range 25).map (Nat.cast : Nat → Int)

/-- `sorted(required - got)`: the required values absent from `nums`,
in increasing order. -/
def missingOf (nums : List Int) : List Int :=
  rangeInts.filter (fun k => decide (k ∉ nums))

/-- Insert into a sorted list of integers. -/
def insertSorted (x : Int) : List Int → List Int
  | [] => [x]
  | y :: t => if x ≤ y then x :: y :: t else y :: insertSorted x t

/-- Sort a list of integers (used to model Python's `sorted`). -/
def sortInts (l : List Int) : List Int := l.foldr insertSorted []

/-- `sorted(got - required)`: the distinct out-of-range values of `nums`,
in increasing order. -/
def extraOf (nums : List Int) : List Int :=
  sortInts ((nums.filter (fun x => decide (x < 0 ∨ 25 ≤ x))).dedup)

/-- Structured rendering of the `ValueError`s of `parse_state_from_csv`:
wrong token count, a non-integer token, or a bad tile set whose message
lists the missing values, the unexpected values, and a duplicate flag. -/
inductive ParseErr where
  | wrongCount (got : Nat)
  | notInteger
  | badTileSet (missing : List Int) (unexpected : List Int) (dups : Bool)
deriving DecidableEq, Repr

/-- `parse_state_from_csv(text)`: tokenize, require 25 integer tokens whose
value set is exactly `{0..24}` (set equality holds iff nothing is missing
and nothing is out of range). -/
def parse_state_from_csv (text : String) : Except ParseErr (List Int) :=
  let parts := tokensOf text.toList
  if parts.length ≠ 25 then Except.error (ParseErr.wrongCount parts.length)
  else
    match parseAll parts with
    | none => Except.error ParseErr.notInteger
    | some nums =>
      if missingOf nums = [] ∧ extraOf nums = [] then Except.ok nums
      else Except.error (ParseErr.badTileSet (missingOf nums) (extraOf nums)
        (decide (nums.dedup.length ≠ nums.length)))

/-- Loop invariant for the BFS main loop: `δ` records the BFS depth of every
state in the parent map, depths are exact shortest distances from `start`,
the queue is sorted within two consecutive depth levels, and every expanded
state has all its neighbors recorded. -/
structure BfsInv (start : State) (δ : State → Nat) (Q : List State)
    (P : List (State × Option State)) : Prop where
  root_lookup : alookup P start = some none
  root_delta : δ start = 0
  parent_spec : ∀ s ∈ keysOf P, s ≠ start →
    ∃ u, alookup P s = some (some u) ∧ u ∈ keysOf P ∧ s ∈ get_neighbors u ∧ δ s = δ u + 1
  reach : ∀ s ∈ keysOf P, ReachN (δ s) start s
  opt : ∀ s ∈ keysOf P, ∀ m, ReachN m start s → δ s ≤ m
  qmem : ∀ q ∈ Q, q ∈ keysOf P
  qord : List.Pairwise (fun a b => δ a ≤ δ b ∧ δ b ≤ δ a + 1) Q
  closed : ∀ s ∈ keysOf P, s ∉ Q → ∀ n ∈ get_neighbors s, n ∈ keysOf P
  dbound : ∀ s ∈ keysOf P, δ s < P.length

/-- Invariant holding in the middle of one BFS expansion of the dequeued
state `u`, with `l` the still-unprocessed suffix of `u`'s neighbor list. -/
structure BfsMid (start : State) (δ : State → Nat) (u : State) (l : List State)
    (Q : List State) (P : List (State × Option State)) : Prop where
  root_lookup : alookup P start = some none
  root_delta : δ start = 0
  parent_spec : ∀ s ∈ keysOf P, s ≠ start →
    ∃ w, alookup P s = some (some w) ∧ w ∈ keysOf P ∧ s ∈ get_neighbors w ∧ δ s = δ w + 1
  reach : ∀ s ∈ keysOf P, ReachN (δ s) start s
  opt : ∀ s ∈ keysOf P, ∀ m, ReachN m start s → δ s ≤ m
  dbound : ∀ s ∈ keysOf P, δ s < P.length
  umem : u ∈ keysOf P
  qmem : ∀ q ∈ Q, q ∈ keysOf P
  qord : List.Pairwise (fun a b => δ a ≤ δ b ∧ δ b ≤ δ a + 1) Q
  qbound : ∀ q ∈ Q, δ u ≤ δ q ∧ δ q ≤ δ u + 1
  closed_mid : ∀ s ∈ keysOf P, s ∉ Q → s ≠ u → ∀ n ∈ get_neighbors s, n ∈ keysOf P
  udone : ∀ x ∈ get_neighbors u, x ∈ l ∨ x ∈ keysOf P
  lsub : ∀ x ∈ l, x ∈ get_neighbors u

/-- Well-formedness of the DFS node arena: node 0 is the root and every
other node points to an earlier parent, is a neighbor of it, sits one level
deeper, and does not repeat a state of its own ancestor chain. -/
def dnodeWf (start : State) (nodes : List DNode) : Prop :=
  nodes ≠ [] ∧ nodes.getD 0 default = ⟨start, none, 0⟩ ∧
  ∀ i, 0 < i → i < nodes.length →
    ∃ p, (nodes.getD i default).parent = some p ∧ p < i ∧
      (nodes.getD i default).state ∈ get_neighbors ((nodes.getD p default).state) ∧
      (nodes.getD i default).depth = (nodes.getD p default).depth + 1 ∧
      (nodes.getD i default).state ∉ ancestorStates nodes nodes.length p

/-- Loop invariant for the DFS main loop: a well-formed arena, in-range
stack indices, and all node depths within the depth limit. -/
def DfsInv (start : State) (depth_limit : Nat) (nodes : List DNode)
    (stack : List Nat) : Prop :=
  dnodeWf start nodes ∧ (∀ i ∈ stack, i < nodes.length) ∧
  (∀ i, i < nodes.length → (nodes.getD i default).depth ≤ depth_limit)

/-! ### Basic facts about valid states and `swapAt` -/

theorem ValidState.length_eq {s : State} (hs : ValidState s) : s.length = 25 := by
  have h : s.length = (List.range 25).length := List.Perm.length_eq hs
  simpa using h

theorem ValidState.nodup {s : State} (hs : ValidState s) : s.Nodup :=
  List.Perm.nodup (List.Perm.symm hs) (List.nodup_range 25)

theorem ValidState.zero_mem {s : State} (hs : ValidState s) : 0 ∈ s :=
  (List.Perm.mem_iff hs).mpr (by simp)

theorem ValidState.indexOf_zero_lt {s : State} (hs : ValidState s) :
    s.indexOf 0 < 25 := by
  have h := List.indexOf_lt_length.mpr hs.zero_mem
  have hl := hs.length_eq
  omega

theorem ValidState.getD_indexOf_zero {s : State} (hs : ValidState s) :
    s.getD (s.indexOf 0) 0 = 0 := by
  have h := List.indexOf_lt_length.mpr hs.zero_mem
  rw [List.getD_eq_getElem _ _ h]
  exact List.getElem_indexOf h

theorem ValidState.getD_ne_zero {s : State} (hs : ValidState s) (k : Nat)
    (hk : k < 25) (hne : k ≠ s.indexOf 0) : s.getD k 0 ≠ 0 := by
  intro h0
  have hlen := hs.length_eq
  have hk' : k < s.length := by omega
  have hz := List.indexOf_lt_length.mpr hs.zero_mem
  have h1 : s.get ⟨k, hk'⟩ = 0 := by
    rw [List.get_eq_getElem, ← List.getD_eq_getElem _ 0 hk']; exact h0
  have h2 : s.get ⟨s.indexOf 0, hz⟩ = 0 := by
    rw [List.get_eq_getElem]; exact List.getElem_indexOf hz
  have h3 : (⟨k, hk'⟩ : Fin s.length) = ⟨s.indexOf 0, hz⟩ :=
    (List.Nodup.get_inj_iff hs.nodup).mp (h1.trans h2.symm)
  exact hne (congrArg Fin.val h3)

theorem swapAt_length (l : List Nat) (i j : Nat) :
    (swapAt l i j).length = l.length := by
  simp [swapAt]

theorem getD_swapAt_snd (l : List Nat) (i j : Nat) (hj : j < l.length) :
    (swapAt l i j).getD j 0 = l.getD i 0 := by
  unfold swapAt
  rw [List.getD_eq_getElem _ _ (by simpa using hj)]
  simp

theorem getD_swapAt_fst (l : List Nat) (i j : Nat) (hi : i < l.length)
    (hij : j ≠ i) : (swapAt l i j).getD i 0 = l.getD j 0 := by
  unfold swapAt
  rw [List.getD_eq_getElem _ _ (by simpa using hi)]
  rw [List.getElem_set_ne hij, List.getElem_set_self]

theorem getD_swapAt_other (l : List Nat) (i j k : Nat) (hki : k ≠ i)
    (hkj : k ≠ j) : (swapAt l i j).getD k 0 = l.getD k 0 := by
  by_cases hk : k < l.length
  · unfold swapAt
    rw [List.getD_eq_getElem _ _ (by simpa using hk), List.getD_eq_getElem _ _ hk]
    rw [List.getElem_set_ne (fun h => hkj h.symm), List.getElem_set_ne (fun h => hki h.symm)]
  · have h1 : l.length ≤ k := Nat.le_of_not_lt hk
    have h2 : (swapAt l i j).length ≤ k := by rw [swapAt_length]; exact h1
    rw [List.getD_eq_default _ _ h2, List.getD_eq_default _ _ h1]

theorem swapAt_comm (l : List Nat) (i j : Nat) (hij : i ≠ j) :
    swapAt l i j = swapAt l j i := by
  unfold swapAt
  rw [List.set_comm _ _ _ hij]

theorem indexOf_zero_eq_of (l : List Nat) :
    ∀ i : Nat, i < l.length → l.getD i 0 = 0 → (∀ k, k < i → l.getD k 0 ≠ 0) →
    l.indexOf 0 = i := by
  induction l with
  | nil => intro i hi; simp at hi
  | cons a t ih =>
    intro i hi h0 hk
    cases i with
    | zero =>
      have : a = 0 := by simpa [List.getD] using h0
      simp [List.indexOf_cons, this]
    | succ i =>
      have ha : a ≠ 0 := by
        have := hk 0 (Nat.succ_pos i)
        simpa [List.getD] using this
      have ht : t.indexOf 0 = i := by
        refine ih i (by simpa using Nat.lt_of_succ_lt_succ hi)
          (by simpa [List.getD] using h0) ?_
        intro k hk2
        have := hk (k + 1) (by omega)
        simpa [List.getD] using this
      simp [List.indexOf_cons, ha, ht]

/-! ### List decomposition at two positions -/

theorem eq_take_cons_drop (l : List Nat) (i : Nat) (hi : i < l.length) :
    l = l.take i ++ l.getD i 0 :: l.drop (i + 1) := by
  rw [List.getD_eq_getElem _ _ hi]
  conv_lhs => rw [← List.take_append_drop i l]
  rw [← List.getElem_cons_drop l i hi]

theorem set_middle (A : List Nat) (c : Nat) (B : List Nat) (v : Nat) :
    (A ++ c :: B).set A.length v = A ++ v :: B := by
  induction A with
  | nil => simp
  | cons a t ih => simp [ih]

theorem set_set_decomp (A M B : List Nat) (a b v w : Nat) :
    ((A ++ a :: (M ++ b :: B)).set A.length v).set (A.length + 1 + M.length) w =
    A ++ v :: (M ++ w :: B) := by
  rw [set_middle]
  have hassoc1 : A ++ v :: (M ++ b :: B) = (A ++ v :: M) ++ b :: B := by simp
  have hlen : A.length + 1 + M.length = (A ++ v :: M).length := by simp; omega
  rw [hassoc1, hlen, set_middle]
  simp

theorem decomp_two (l : List Nat) (i j : Nat) (hij : i < j) (hj : j < l.length) :
    l = l.take i ++ l.getD i 0 ::
        (((l.drop (i + 1)).take (j - i - 1)) ++ l.getD j 0 :: l.drop (j + 1)) := by
  have hi : i < l.length := lt_trans hij hj
  have hstep1 : l.drop (i + 1) =
      (l.drop (i + 1)).take (j - i - 1) ++ l.getD j 0 :: l.drop (j + 1) := by
    conv_lhs => rw [← List.take_append_drop (j - i - 1) (l.drop (i + 1))]
    congr 1
    rw [List.drop_drop]
    have harith : i + 1 + (j - i - 1) = j := by omega
    rw [harith, List.getD_eq_getElem _ _ hj]
    exact (List.getElem_cons_drop l j hj).symm
  conv_lhs => rw [eq_take_cons_drop l i hi]
  rw [← hstep1]

theorem swap_decomp (l : List Nat) (i j : Nat) (hij : i < j) (hj : j < l.length) :
    swapAt l i j =
      l.take i ++ l.getD j 0 ::
        (((l.drop (i + 1)).take (j - i - 1)) ++ l.getD i 0 :: l.drop (j + 1)) := by
  have hi : i < l.length := lt_trans hij hj
  have hlenA : (l.take i).length = i := by
    rw [List.length_take]
    omega
  have hlenM : ((l.drop (i + 1)).take (j - i - 1)).length = j - i - 1 := by
    rw [List.length_take, List.length_drop]
    omega
  have hkey := set_set_decomp (l.take i) ((l.drop (i + 1)).take (j - i - 1))
    (l.drop (j + 1)) (l.getD i 0) (l.getD j 0) (l.getD j 0) (l.getD i 0)
  rw [hlenA, hlenM] at hkey
  have harith : i + 1 + (j - i - 1) = j := by omega
  rw [harith] at hkey
  unfold swapAt
  conv_lhs =>
    rw [show (l.set i (l.getD j 0)).set j (l.getD i 0)
        = ((l.take i ++ l.getD i 0 ::
            (((l.drop (i + 1)).take (j - i - 1)) ++ l.getD j 0 :: l.drop (j + 1))).set i
            (l.getD j 0)).set j (l.getD i 0) from by rw [← decomp_two l i j hij hj]]
  rw [hkey]

theorem cons_middle_perm (M B : List Nat) (a b : Nat) :
    (b :: (M ++ a :: B)).Perm (a :: (M ++ b :: B)) :=
  (List.Perm.cons b List.perm_middle).trans
    ((List.Perm.swap a b (M ++ B)).trans
      (List.Perm.cons a (List.Perm.symm List.perm_middle)))

theorem swapAt_perm_of_lt (l : List Nat) (i j : Nat) (hij : i < j)
    (hj : j < l.length) : (swapAt l i j).Perm l := by
  rw [swap_decomp l i j hij hj]
  conv_rhs => rw [decomp_two l i j hij hj]
  exact List.Perm.append_left _ (cons_middle_perm _ _ _ _)

theorem swapAt_perm (l : List Nat) (i j : Nat) (hij : i ≠ j) (hi : i < l.length)
    (hj : j < l.length) : (swapAt l i j).Perm l := by
  rcases Nat.lt_or_ge i j with h | h
  · exact swapAt_perm_of_lt l i j h hj
  · have h' : j < i := Nat.lt_of_le_of_ne h (fun e => hij e.symm)
    rw [swapAt_comm l i j hij]
    exact swapAt_perm_of_lt l j i h' hi

/-! ### Facts about `moveTargets` and `get_neighbors` -/

theorem mem_moveTargets (zi ni : Nat) :
    ni ∈ moveTargets zi ↔
      (0 < zi / 5 ∧ ni = zi - 5) ∨ (zi / 5 < 4 ∧ ni = zi + 5) ∨
      (0 < zi % 5 ∧ ni = zi - 1) ∨ (zi % 5 < 4 ∧ ni = zi + 1) := by
  simp only [moveTargets, SIZE, List.mem_append]
  constructor
  · intro h
    rcases h with ((h | h) | h) | h <;> split_ifs at h <;> simp_all
  · intro h
    rcases h with ⟨h1, h2⟩ | ⟨h1, h2⟩ | ⟨h1, h2⟩ | ⟨h1, h2⟩ <;>
      subst h2 <;> simp [h1]

theorem mem_moveTargets_props (zi ni : Nat) (hzi : zi < 25)
    (h : ni ∈ moveTargets zi) : ni < 25 ∧ ni ≠ zi ∧ Adj zi ni := by
  rw [mem_moveTargets] at h
  unfold Adj SIZE
  rcases h with ⟨h1, h2⟩ | ⟨h1, h2⟩ | ⟨h1, h2⟩ | ⟨h1, h2⟩ <;> subst h2 <;>
    refine ⟨by omega, by omega, ?_⟩
  · right
    constructor <;> omega
  · right
    constructor <;> omega
  · left
    constructor <;> omega
  · left
    constructor <;> omega

theorem mem_moveTargets_symm (zi ni : Nat) (hzi : zi < 25)
    (h : ni ∈ moveTargets zi) : zi ∈ moveTargets ni := by
  rw [mem_moveTargets] at h
  rw [mem_moveTargets]
  rcases h with ⟨h1, h2⟩ | ⟨h1, h2⟩ | ⟨h1, h2⟩ | ⟨h1, h2⟩ <;> subst h2
  · right
    left
    omega
  · left
    omega
  · right
    right
    right
    omega
  · right
    right
    left
    omega

theorem mem_get_neighbors (s n : State) :
    n ∈ get_neighbors s ↔
      ∃ ni ∈ moveTargets (s.indexOf 0), n = swapAt s (s.indexOf 0) ni := by
  simp only [get_neighbors, List.mem_map]
  constructor
  · rintro ⟨ni, h1, h2⟩
    exact ⟨ni, h1, h2.symm⟩
  · rintro ⟨ni, h1, h2⟩
    exact ⟨ni, h1, h2.symm⟩

theorem neighbor_valid {s n : State} (hs : ValidState s)
    (hn : n ∈ get_neighbors s) : ValidState n := by
  rw [mem_get_neighbors] at hn
  obtain ⟨ni, hmem, heq⟩ := hn
  obtain ⟨hlt, hne, -⟩ := mem_moveTargets_props _ _ hs.indexOf_zero_lt hmem
  have hlen := hs.length_eq
  subst heq
  exact List.Perm.trans
    (swapAt_perm s (s.indexOf 0) ni (fun e => hne e.symm)
      (by rw [hlen]; exact hs.indexOf_zero_lt) (by omega)) hs

theorem neighbor_ne {s n : State} (hs : ValidState s)
    (hn : n ∈ get_neighbors s) : n ≠ s := by
  rw [mem_get_neighbors] at hn
  obtain ⟨ni, hmem, heq⟩ := hn
  obtain ⟨hlt, hne, -⟩ := mem_moveTargets_props _ _ hs.indexOf_zero_lt hmem
  have hlen := hs.length_eq
  have hzi := hs.indexOf_zero_lt
  intro hcontra
  have h1 : n.getD (s.indexOf 0) 0 = s.getD ni 0 := by
    rw [heq]
    exact getD_swapAt_fst s _ ni (by omega) hne
  have h2 : s.getD ni 0 ≠ 0 := hs.getD_ne_zero ni hlt hne
  have h3 : s.getD (s.indexOf 0) 0 = 0 := hs.getD_indexOf_zero
  rw [hcontra] at h1
  rw [h3] at h1
  exact h2 h1.symm

theorem getD_ext (l₁ l₂ : List Nat) (hlen : l₁.length = l₂.length)
    (h : ∀ k, k < l₁.length → l₁.getD k 0 = l₂.getD k 0) : l₁ = l₂ := by
  apply List.ext_getElem hlen
  intro k hk1 hk2
  have := h k hk1
  rw [List.getD_eq_getElem _ _ hk1, List.getD_eq_getElem _ _ hk2] at this
  exact this

theorem indexOf_zero_swap {s : State} (hs : ValidState s) (ni : Nat)
    (hlt : ni < 25) (hne : ni ≠ s.indexOf 0) :
    (swapAt s (s.indexOf 0) ni).indexOf 0 = ni := by
  have hlen := hs.length_eq
  apply indexOf_zero_eq_of
  · rw [swapAt_length]
    omega
  · rw [getD_swapAt_snd s _ ni (by omega)]
    exact hs.getD_indexOf_zero
  · intro k hk
    by_cases hkz : k = s.indexOf 0
    · subst hkz
      rw [getD_swapAt_fst s _ ni (by omega) hne]
      exact hs.getD_ne_zero ni hlt hne
    · rw [getD_swapAt_other s _ ni k hkz (by omega)]
      exact hs.getD_ne_zero k (by omega) hkz

theorem swapAt_invol {s : State} (hs : ValidState s) (ni : Nat)
    (hlt : ni < 25) (hne : ni ≠ s.indexOf 0) :
    swapAt (swapAt s (s.indexOf 0) ni) ni (s.indexOf 0) = s := by
  have hlen := hs.length_eq
  have hzi := hs.indexOf_zero_lt
  set n := swapAt s (s.indexOf 0) ni with hn
  have hnlen : n.length = s.length := swapAt_length _ _ _
  apply getD_ext
  · rw [swapAt_length, hnlen]
  · intro k hk
    rw [swapAt_length, hnlen, hlen] at hk
    by_cases hk1 : k = ni
    · subst hk1
      rw [getD_swapAt_fst n k (s.indexOf 0) (by omega) (fun e => hne e.symm)]
      rw [hn, getD_swapAt_fst s _ k (by omega) hne]
    · by_cases hk2 : k = s.indexOf 0
      · subst hk2
        rw [getD_swapAt_snd n ni (s.indexOf 0) (by omega)]
        rw [hn, getD_swapAt_snd s _ ni (by omega)]
      · rw [getD_swapAt_other n ni (s.indexOf 0) k hk1 hk2]
        rw [hn, getD_swapAt_other s _ ni k hk2 hk1]

theorem mem_get_neighbors_symm {s n : State} (hs : ValidState s)
    (hn : n ∈ get_neighbors s) : s ∈ get_neighbors n := by
  have hzi := hs.indexOf_zero_lt
  rw [mem_get_neighbors] at hn
  obtain ⟨ni, hmem, heq⟩ := hn
  obtain ⟨hlt, hne, -⟩ := mem_moveTargets_props _ _ hzi hmem
  rw [mem_get_neighbors]
  refine ⟨s.indexOf 0, ?_, ?_⟩
  · rw [heq, indexOf_zero_swap hs ni hlt hne]
    exact mem_moveTargets_symm _ _ hzi hmem
  · rw [heq, indexOf_zero_swap hs ni hlt hne]
    exact (swapAt_invol hs ni hlt hne).symm

/-! ### Inversion counting -/

theorem sumMapAdd (f g : Nat → Nat) (l : List Nat) :
    (l.map (fun a => f a + g a)).sum = (l.map f).sum + (l.map g).sum := by
  induction l with
  | nil => simp
  | cons a t ih => simp [ih]; omega

theorem sumIteCountP (x : Nat) (Q : List Nat) :
    (Q.map (fun q => if x < q then 1 else 0)).sum = Q.countP (fun q => decide (x < q)) := by
  induction Q with
  | nil => simp
  | cons q t ih =>
    rw [List.map_cons, List.sum_cons, List.countP_cons, ih]
    by_cases h : x < q <;> simp [h] <;> omega

theorem countP_lt_gt_total (x : Nat) (Q : List Nat) (hQ : ∀ q ∈ Q, q ≠ x) :
    Q.countP (fun q => decide (x < q)) + Q.countP (fun q => decide (q < x)) = Q.length := by
  induction Q with
  | nil => simp
  | cons q t ih =>
    have hq : q ≠ x := hQ q (List.mem_cons_self q t)
    have ht : ∀ a ∈ t, a ≠ x := fun a ha => hQ a (List.mem_cons_of_mem q ha)
    rw [List.countP_cons, List.countP_cons, List.length_cons]
    have := ih ht
    rcases Nat.lt_trichotomy x q with h | h | h
    · simp [h, Nat.lt_asymm h]
      omega
    · exact absurd h.symm hq
    · simp [h, Nat.lt_asymm h]
      omega

theorem invAux_append (l₁ l₂ : List Nat) :
    invAux (l₁ ++ l₂) = invAux l₁ + invAux l₂ +
      (l₁.map (fun a => l₂.countP (fun b => decide (b < a)))).sum := by
  induction l₁ with
  | nil => simp [invAux]
  | cons a t ih =>
    have h1 : invAux ((a :: t) ++ l₂)
        = (t ++ l₂).countP (fun b => decide (b < a)) + invAux (t ++ l₂) := rfl
    have h2 : (t ++ l₂).countP (fun b => decide (b < a))
        = t.countP (fun b => decide (b < a)) + l₂.countP (fun b => decide (b < a)) :=
      List.countP_append _ _ _
    have h3 : invAux (a :: t) = t.countP (fun b => decide (b < a)) + invAux t := rfl
    rw [h1, h2, ih, h3]
    simp only [List.map_cons, List.sum_cons]
    omega

theorem invAux_move_parity (P Q R : List Nat) (x : Nat)
    (hQx : ∀ q ∈ Q, q ≠ x) (hQlen : Q.length % 2 = 0) :
    invAux (P ++ (Q ++ x :: R)) % 2 = invAux (P ++ x :: (Q ++ R)) % 2 := by
  have hcross : ∀ a : Nat, (Q ++ x :: R).countP (fun b => decide (b < a))
      = (x :: (Q ++ R)).countP (fun b => decide (b < a)) := by
    intro a
    rw [List.countP_append, List.countP_cons, List.countP_cons, List.countP_append]
    omega
  have hmap : (P.map (fun a => (Q ++ x :: R).countP (fun b => decide (b < a)))).sum
      = (P.map (fun a => (x :: (Q ++ R)).countP (fun b => decide (b < a)))).sum := by
    congr 1
    exact List.map_congr_left (fun a _ => hcross a)
  have e1 := invAux_append P (Q ++ x :: R)
  have e2 := invAux_append Q (x :: R)
  have e3 : invAux (x :: R) = R.countP (fun b => decide (b < x)) + invAux R := rfl
  have e4 : (Q.map (fun a => (x :: R).countP (fun b => decide (b < a)))).sum
      = (Q.map (fun a => R.countP (fun b => decide (b < a)))).sum
        + Q.countP (fun q => decide (x < q)) := by
    have h : ∀ a ∈ Q, (x :: R).countP (fun b => decide (b < a))
        = R.countP (fun b => decide (b < a)) + (if x < a then 1 else 0) := by
      intro a _
      rw [List.countP_cons]
      by_cases hxa : x < a <;> simp [hxa]
    rw [List.map_congr_left h, sumMapAdd, sumIteCountP]
  have f1 := invAux_append P (x :: (Q ++ R))
  have f2 : invAux (x :: (Q ++ R)) = (Q ++ R).countP (fun b => decide (b < x))
      + invAux (Q ++ R) := rfl
  have f3 : (Q ++ R).countP (fun b => decide (b < x))
      = Q.countP (fun b => decide (b < x)) + R.countP (fun b => decide (b < x)) :=
    List.countP_append _ _ _
  have f4 := invAux_append Q R
  have htot := countP_lt_gt_total x Q hQx
  omega

theorem filter_ne_zero_eq_self (M : List Nat) (h : ∀ q ∈ M, q ≠ 0) :
    M.filter (fun x => decide (x ≠ 0)) = M :=
  List.filter_eq_self.mpr (fun a ha => by simp [h a ha])

theorem inversion_parity_swap (s : List Nat) (hnd : s.Nodup) (i j : Nat)
    (hij : i < j) (hj : j < s.length) (heven : (j - i - 1) % 2 = 0)
    (hzero : s.getD i 0 = 0 ∨ s.getD j 0 = 0) :
    inversion_count (swapAt s i j) % 2 = inversion_count s % 2 := by
  have hdec := decomp_two s i j hij hj
  have hsw := swap_decomp s i j hij hj
  have hMlen : ((s.drop (i + 1)).take (j - i - 1)).length = j - i - 1 := by
    rw [List.length_take, List.length_drop]
    omega
  set A := s.take i
  set M := (s.drop (i + 1)).take (j - i - 1)
  set B := s.drop (j + 1)
  set a := s.getD i 0
  set b := s.getD j 0
  have hnd2 : (A ++ a :: (M ++ b :: B)).Nodup := by rw [← hdec]; exact hnd
  rw [List.nodup_append] at hnd2
  obtain ⟨-, hnd3, -⟩ := hnd2
  rw [List.nodup_cons] at hnd3
  obtain ⟨hamem, hnd4⟩ := hnd3
  have hab : a ≠ b := fun e =>
    hamem (List.mem_append_right M (by rw [e]; exact List.mem_cons_self b B))
  have hMa : ∀ q ∈ M, q ≠ a := fun q hq e =>
    hamem (List.mem_append_left _ (by rw [← e]; exact hq))
  rw [List.nodup_append] at hnd4
  obtain ⟨-, -, hdisj⟩ := hnd4
  have hMb : ∀ q ∈ M, q ≠ b := fun q hq e => hdisj hq (by rw [e]; exact List.mem_cons_self b B)
  have hMeven : M.length % 2 = 0 := by rw [hMlen]; exact heven
  rcases hzero with ha0 | hb0
  · have hb0 : b ≠ 0 := fun e => hab (ha0.trans e.symm)
    have hM0 : ∀ q ∈ M, q ≠ 0 := fun q hq => ha0 ▸ hMa q hq
    have hsval : inversion_count s
        = invAux (A.filter (fun x => decide (x ≠ 0)) ++
            (M ++ b :: B.filter (fun x => decide (x ≠ 0)))) := by
      unfold inversion_count
      conv_lhs => rw [hdec]
      rw [List.filter_append, List.filter_cons, List.filter_append,
        filter_ne_zero_eq_self M hM0, List.filter_cons]
      simp [ha0, hb0]
    have hswval : inversion_count (swapAt s i j)
        = invAux (A.filter (fun x => decide (x ≠ 0)) ++
            b :: (M ++ B.filter (fun x => decide (x ≠ 0)))) := by
      unfold inversion_count
      rw [hsw]
      rw [List.filter_append, List.filter_cons, List.filter_append,
        filter_ne_zero_eq_self M hM0, List.filter_cons]
      simp [ha0, hb0]
    rw [hsval, hswval]
    exact (invAux_move_parity _ M _ b hMb hMeven).symm
  · have ha0 : a ≠ 0 := fun e => hab (e.trans hb0.symm)
    have hM0 : ∀ q ∈ M, q ≠ 0 := fun q hq => hb0 ▸ hMb q hq
    have hsval : inversion_count s
        = invAux (A.filter (fun x => decide (x ≠ 0)) ++
            a :: (M ++ B.filter (fun x => decide (x ≠ 0)))) := by
      unfold inversion_count
      conv_lhs => rw [hdec]
      rw [List.filter_append, List.filter_cons, List.filter_append,
        filter_ne_zero_eq_self M hM0, List.filter_cons]
      simp [ha0, hb0]
    have hswval : inversion_count (swapAt s i j)
        = invAux (A.filter (fun x => decide (x ≠ 0)) ++
            (M ++ a :: B.filter (fun x => decide (x ≠ 0)))) := by
      unfold inversion_count
      rw [hsw]
      rw [List.filter_append, List.filter_cons, List.filter_append,
        filter_ne_zero_eq_self M hM0, List.filter_cons]
      simp [ha0, hb0]
    rw [hsval, hswval]
    exact invAux_move_parity _ M _ a hMa hMeven

theorem inversion_count_parity_neighbor {s n : State} (hs : ValidState s)
    (hn : n ∈ get_neighbors s) : inversion_count n % 2 = inversion_count s % 2 := by
  rw [mem_get_neighbors] at hn
  obtain ⟨ni, hmem, heq⟩ := hn
  have hzi := hs.indexOf_zero_lt
  have hlen := hs.length_eq
  obtain ⟨hlt, hne, -⟩ := mem_moveTargets_props _ _ hzi hmem
  have hnd := hs.nodup
  have hzero := hs.getD_indexOf_zero
  rw [mem_moveTargets] at hmem
  subst heq
  rcases hmem with ⟨h1, h2⟩ | ⟨h1, h2⟩ | ⟨h1, h2⟩ | ⟨h1, h2⟩ <;> subst h2
  · rw [swapAt_comm s _ _ (fun e => hne e.symm)]
    exact inversion_parity_swap s hnd (s.indexOf 0 - 5) (s.indexOf 0)
      (by omega) (by omega) (by omega) (Or.inr hzero)
  · exact inversion_parity_swap s hnd (s.indexOf 0) (s.indexOf 0 + 5)
      (by omega) (by omega) (by omega) (Or.inl hzero)
  · rw [swapAt_comm s _ _ (fun e => hne e.symm)]
    exact inversion_parity_swap s hnd (s.indexOf 0 - 1) (s.indexOf 0)
      (by omega) (by omega) (by omega) (Or.inr hzero)
  · exact inversion_parity_swap s hnd (s.indexOf 0) (s.indexOf 0 + 1)
      (by omega) (by omega) (by omega) (Or.inl hzero)

theorem length_filter_range_getD (p : Nat → Bool) (l : List Nat) :
    ((List.range l.length).filter (fun k => p (l.getD k 0))).length
      = (l.filter p).length := by
  induction l with
  | nil => simp
  | cons a t ih =>
    rw [List.length_cons, List.range_succ_eq_map]
    have hmap : (List.map Nat.succ (List.range t.length)).filter
          (fun k => p ((a :: t).getD k 0))
        = List.map Nat.succ ((List.range t.length).filter (fun k => p (t.getD k 0))) := by
      rw [List.filter_map]
      congr 1
    rw [List.filter_cons, List.filter_cons, hmap]
    simp only [List.getD_cons_zero]
    by_cases hpa : p a = true
    · rw [if_pos hpa, if_pos hpa, List.length_cons, List.length_cons, List.length_map, ih]
    · rw [if_neg hpa, if_neg hpa, List.length_map, ih]

theorem pairInversions_cons (a : Nat) (t : List Nat) :
    pairInversions (a :: t) =
      (if a = 0 then 0 else (t.filter (fun b => decide (b ≠ 0 ∧ b < a))).length)
      + pairInversions t := by
  unfold pairInversions
  rw [List.length_cons, List.range_succ_eq_map, List.map_cons, List.sum_cons, List.map_map]
  have hhead : ((0 :: List.map Nat.succ (List.range t.length)).filter (fun j =>
        decide (0 < j ∧ (a :: t).getD 0 0 ≠ 0 ∧ (a :: t).getD j 0 ≠ 0 ∧
          (a :: t).getD j 0 < (a :: t).getD 0 0))).length
      = if a = 0 then 0 else (t.filter (fun b => decide (b ≠ 0 ∧ b < a))).length := by
    rw [List.filter_cons, if_neg (by simp)]
    rw [List.filter_map, List.length_map]
    by_cases ha : a = 0
    · rw [if_pos ha]
      have hall : ∀ k ∈ List.range t.length,
          ((fun j => decide (0 < j ∧ (a :: t).getD 0 0 ≠ 0 ∧ (a :: t).getD j 0 ≠ 0 ∧
            (a :: t).getD j 0 < (a :: t).getD 0 0)) ∘ Nat.succ) k = false := by
        intro k _
        simp [Function.comp, ha]
      rw [List.filter_congr hall]
      simp
    · rw [if_neg ha, ← length_filter_range_getD (fun b => decide (b ≠ 0 ∧ b < a)) t]
      congr 1
      apply List.filter_congr
      intro k _
      simp [Function.comp, List.getD_cons_succ, List.getD_cons_zero, ha]
  have htail : ∀ i ∈ List.range t.length,
      ((0 :: List.map Nat.succ (List.range t.length)).filter (fun j =>
        decide (Nat.succ i < j ∧ (a :: t).getD (Nat.succ i) 0 ≠ 0 ∧ (a :: t).getD j 0 ≠ 0 ∧
          (a :: t).getD j 0 < (a :: t).getD (Nat.succ i) 0))).length
      = ((List.range t.length).filter (fun j =>
        decide (i < j ∧ t.getD i 0 ≠ 0 ∧ t.getD j 0 ≠ 0 ∧ t.getD j 0 < t.getD i 0))).length := by
    intro i _
    rw [List.filter_cons, if_neg (by simp)]
    rw [List.filter_map, List.length_map]
    congr 1
    apply List.filter_congr
    intro k _
    simp [Function.comp, List.getD_cons_succ, Nat.succ_lt_succ_iff]
  rw [hhead]
  congr 1
  have : (List.map ((fun i => ((0 :: List.map Nat.succ (List.range t.length)).filter (fun j =>
        decide (i < j ∧ (a :: t).getD i 0 ≠ 0 ∧ (a :: t).getD j 0 ≠ 0 ∧
          (a :: t).getD j 0 < (a :: t).getD i 0))).length) ∘ Nat.succ) (List.range t.length))
      = List.map (fun i => ((List.range t.length).filter (fun j =>
        decide (i < j ∧ t.getD i 0 ≠ 0 ∧ t.getD j 0 ≠ 0 ∧
          t.getD j 0 < t.getD i 0))).length) (List.range t.length) :=
    List.map_congr_left (fun i hi => htail i hi)
  rw [this]

theorem inversion_count_eq_pairInversions (s : List Nat) :
    inversion_count s = pairInversions s := by
  induction s with
  | nil => rfl
  | cons a t ih =>
    rw [pairInversions_cons, ← ih]
    unfold inversion_count
    rw [List.filter_cons]
    by_cases ha : a = 0
    · rw [if_neg (by simp [ha]), if_pos ha, Nat.zero_add]
    · rw [if_pos (by simp [ha]), if_neg ha]
      have hcons : invAux (a :: t.filter (fun x => decide (x ≠ 0)))
          = (t.filter (fun x => decide (x ≠ 0))).countP (fun b => decide (b < a))
            + invAux (t.filter (fun x => decide (x ≠ 0))) := rfl
      rw [hcons]
      have hcnt : (t.filter (fun x => decide (x ≠ 0))).countP (fun b => decide (b < a))
          = (t.filter (fun b => decide (b ≠ 0 ∧ b < a))).length := by
        rw [List.countP_filter, ← List.countP_eq_length_filter]
        apply List.countP_congr
        intro b _
        by_cases hb0 : b = 0 <;> by_cases hba : b < a <;> simp [hb0, hba]
      rw [hcnt]

/-! ### Parser facts -/

theorem insertSorted_ne_nil (x : Int) (l : List Int) : insertSorted x l ≠ [] := by
  cases l with
  | nil => simp [insertSorted]
  | cons y t =>
    unfold insertSorted
    by_cases h : x ≤ y <;> simp [h]

theorem sortInts_eq_nil_iff (l : List Int) : sortInts l = [] ↔ l = [] := by
  cases l with
  | nil => simp [sortInts]
  | cons x t =>
    unfold sortInts
    simp only [List.foldr_cons]
    constructor
    · intro h
      exact absurd h (insertSorted_ne_nil x _)
    · intro h
      exact absurd h (by simp)

theorem mem_rangeInts (k : Int) : k ∈ rangeInts ↔ 0 ≤ k ∧ k < 25 := by
  unfold rangeInts
  simp only [List.mem_map, List.mem_range]
  constructor
  · rintro ⟨m, hm, rfl⟩
    omega
  · intro ⟨h1, h2⟩
    exact ⟨k.toNat, by omega, by omega⟩

theorem rangeInts_nodup : rangeInts.Nodup := by
  unfold rangeInts
  refine List.Nodup.map ?_ (List.nodup_range 25)
  intro a b h
  omega

theorem rangeInts_length : rangeInts.length = 25 := by
  unfold rangeInts
  rw [List.length_map, List.length_range]

theorem extraOf_eq_nil_iff (nums : List Int) :
    extraOf nums = [] ↔ ∀ x ∈ nums, 0 ≤ x ∧ x < 25 := by
  unfold extraOf
  rw [sortInts_eq_nil_iff, List.dedup_eq_nil, List.filter_eq_nil]
  constructor
  · intro h x hx
    have := h x hx
    simp at this
    omega
  · intro h x hx
    have := h x hx
    simp
    omega

theorem missingOf_eq_nil_iff (nums : List Int) :
    missingOf nums = [] ↔ ∀ k ∈ rangeInts, k ∈ nums := by
  unfold missingOf
  rw [List.filter_eq_nil]
  constructor
  · intro h k hk
    have := h k hk
    simpa using this
  · intro h k hk
    simp [h k hk]

theorem tileSet_ok_iff_perm (nums : List Int) (hlen : nums.length = 25) :
    (missingOf nums = [] ∧ extraOf nums = []) ↔ nums.Perm rangeInts := by
  constructor
  · rintro ⟨hmiss, hextra⟩
    have hsub : rangeInts ⊆ nums := (missingOf_eq_nil_iff nums).mp hmiss
    have hsubperm : rangeInts.Subperm nums := List.Nodup.subperm rangeInts_nodup hsub
    have hperm : rangeInts.Perm nums :=
      List.Subperm.perm_of_length_le hsubperm (by rw [hlen, rangeInts_length])
    exact hperm.symm
  · intro hperm
    constructor
    · rw [missingOf_eq_nil_iff]
      intro k hk
      exact (List.Perm.mem_iff hperm).mpr hk
    · rw [extraOf_eq_nil_iff]
      intro x hx
      have : x ∈ rangeInts := (List.Perm.mem_iff hperm).mp hx
      exact (mem_rangeInts x).mp this

theorem dedup_length_eq_iff_nodup (nums : List Int) :
    nums.dedup.length = nums.length ↔ nums.Nodup := by
  constructor
  · intro h
    have hsub : nums.dedup.Sublist nums := List.dedup_sublist nums
    have : nums.dedup = nums := List.Sublist.eq_of_length hsub h
    rw [← this]
    exact List.nodup_dedup nums
  · intro h
    rw [List.dedup_eq_self.mpr h]

theorem parseAll_length {l : List (List Char)} {nums : List Int}
    (h : parseAll l = some nums) : nums.length = l.length := by
  induction l generalizing nums with
  | nil =>
    unfold parseAll at h
    cases h
    rfl
  | cons p rest ih =>
    unfold parseAll at h
    cases hp : parseIntTok p with
    | none => rw [hp] at h; cases h
    | some v =>
      rw [hp] at h
      cases hr : parseAll rest with
      | none => rw [hr] at h; cases h
      | some vs =>
        rw [hr] at h
        cases h
        simp [ih hr]

theorem parse_ok_iff (text : String) (nums : List Int) :
    parse_state_from_csv text = Except.ok nums ↔
      (tokensOf text.toList).length = 25 ∧ parseAll (tokensOf text.toList) = some nums ∧
        nums.Perm rangeInts := by
  unfold parse_state_from_csv
  by_cases hlen : (tokensOf text.toList).length = 25
  · rw [if_neg (by omega)]
    cases hpa : parseAll (tokensOf text.toList) with
    | none => simp [hpa]
    | some ns =>
      dsimp only
      by_cases hok : missingOf ns = [] ∧ extraOf ns = []
      · rw [if_pos hok]
        have hperm := (tileSet_ok_iff_perm ns (by rw [parseAll_length hpa, hlen])).mp hok
        constructor
        · intro h
          cases h
          exact ⟨hlen, rfl, hperm⟩
        · rintro ⟨-, h2, -⟩
          cases h2
          rfl
      · rw [if_neg hok]
        constructor
        · intro h
          cases h
        · rintro ⟨-, h2, hperm⟩
          cases h2
          exact absurd ((tileSet_ok_iff_perm nums
            (by rw [parseAll_length hpa, hlen])).mpr hperm) hok
  · rw [if_pos (by omega)]
    constructor
    · intro h
      cases h
    · rintro ⟨h1, -⟩
      exact absurd h1 hlen

theorem parse_wrongCount_iff (text : String) (n : Nat) :
    parse_state_from_csv text = Except.error (ParseErr.wrongCount n) ↔
      (tokensOf text.toList).length ≠ 25 ∧ n = (tokensOf text.toList).length := by
  unfold parse_state_from_csv
  by_cases hlen : (tokensOf text.toList).length = 25
  · rw [if_neg (by omega)]
    cases hpa : parseAll (tokensOf text.toList) with
    | none =>
      constructor
      · intro h
        cases h
      · rintro ⟨h1, -⟩
        exact absurd hlen h1
    | some ns =>
      dsimp only
      by_cases hok : missingOf ns = [] ∧ extraOf ns = []
      · rw [if_pos hok]
        constructor
        · intro h
          cases h
        · rintro ⟨h1, -⟩
          exact absurd hlen h1
      · rw [if_neg hok]
        constructor
        · intro h
          cases h
        · rintro ⟨h1, -⟩
          exact absurd hlen h1
  · rw [if_pos (by omega)]
    constructor
    · intro h
      cases h
      exact ⟨hlen, rfl⟩
    · rintro ⟨-, h2⟩
      rw [h2]

theorem parse_notInteger_iff (text : String) :
    parse_state_from_csv text = Except.error ParseErr.notInteger ↔
      (tokensOf text.toList).length = 25 ∧ parseAll (tokensOf text.toList) = none := by
  unfold parse_state_from_csv
  by_cases hlen : (tokensOf text.toList).length = 25
  · rw [if_neg (by omega)]
    cases hpa : parseAll (tokensOf text.toList) with
    | none =>
      dsimp only
      exact iff_of_true rfl ⟨hlen, rfl⟩
    | some ns =>
      dsimp only
      by_cases hok : missingOf ns = [] ∧ extraOf ns = []
      · rw [if_pos hok]
        exact iff_of_false (by intro h; simp at h) (by rintro ⟨-, h⟩; cases h)
      · rw [if_neg hok]
        exact iff_of_false (by intro h; simp at h) (by rintro ⟨-, h⟩; cases h)
  · rw [if_pos (by omega)]
    exact iff_of_false (by intro h; simp at h) (fun h => hlen h.1)

theorem parse_badTileSet_iff (text : String) (m e : List Int) (d : Bool) :
    parse_state_from_csv text = Except.error (ParseErr.badTileSet m e d) ↔
      (tokensOf text.toList).length = 25 ∧
        ∃ ns, parseAll (tokensOf text.toList) = some ns ∧ ¬ ns.Perm rangeInts ∧
          m = missingOf ns ∧ e = extraOf ns ∧ (d = true ↔ ¬ ns.Nodup) := by
  unfold parse_state_from_csv
  by_cases hlen : (tokensOf text.toList).length = 25
  · rw [if_neg (by omega)]
    cases hpa : parseAll (tokensOf text.toList) with
    | none =>
      dsimp only
      exact iff_of_false (by intro h; simp at h) (by rintro ⟨-, ns, h, -⟩; cases h)
    | some ns =>
      dsimp only
      have hlen25 : ns.length = 25 := by rw [parseAll_length hpa, hlen]
      by_cases hok : missingOf ns = [] ∧ extraOf ns = []
      · rw [if_pos hok]
        have hperm := (tileSet_ok_iff_perm ns hlen25).mp hok
        constructor
        · intro h
          cases h
        · rintro ⟨-, ns2, hns2, hnp, -⟩
          cases hns2
          exact absurd hperm hnp
      · rw [if_neg hok]
        have hnperm : ¬ ns.Perm rangeInts :=
          fun hp => hok ((tileSet_ok_iff_perm ns hlen25).mpr hp)
        constructor
        · intro h
          cases h
          refine ⟨hlen, ns, rfl, hnperm, rfl, rfl, ?_⟩
          rw [decide_eq_true_iff]
          rw [← dedup_length_eq_iff_nodup ns]
        · rintro ⟨-, ns2, hns2, -, hm, he, hd⟩
          cases hns2
          rw [hm, he]
          have hdval : decide (ns.dedup.length ≠ ns.length) = d := by
            rcases Bool.dichotomy d with hdv | hdv
            · subst hdv
              simp only [Bool.false_eq_true, false_iff, not_not] at hd
              rw [decide_eq_false_iff_not, not_not]
              exact (dedup_length_eq_iff_nodup ns).mpr hd
            · subst hdv
              simp only [true_iff] at hd
              rw [decide_eq_true_iff]
              intro heq
              exact hd ((dedup_length_eq_iff_nodup ns).mp heq)
          rw [hdval]
  · rw [if_pos (by omega)]
    exact iff_of_false (by intro h; simp at h) (fun h => hlen h.1)

/-! ### Neighbor counts and direction order -/

theorem moveTargets_length_eq (zi : Nat) :
    (moveTargets zi).length =
      (if 0 < zi / 5 then 1 else 0) + (if zi / 5 < 4 then 1 else 0) +
      ((if 0 < zi % 5 then 1 else 0) + (if zi % 5 < 4 then 1 else 0)) := by
  unfold moveTargets SIZE
  split_ifs <;> simp_all

theorem moveTargets_length_cases (zi : Nat) (h : zi < 25) :
    (2 ≤ (moveTargets zi).length ∧ (moveTargets zi).length ≤ 4) ∧
    (((zi / 5 = 0 ∨ zi / 5 = 4) ∧ (zi % 5 = 0 ∨ zi % 5 = 4)) →
      (moveTargets zi).length = 2) ∧
    ((((zi / 5 = 0 ∨ zi / 5 = 4) ∧ 0 < zi % 5 ∧ zi % 5 < 4) ∨
      ((zi % 5 = 0 ∨ zi % 5 = 4) ∧ 0 < zi / 5 ∧ zi / 5 < 4)) →
      (moveTargets zi).length = 3) ∧
    ((0 < zi / 5 ∧ zi / 5 < 4 ∧ 0 < zi % 5 ∧ zi % 5 < 4) →
      (moveTargets zi).length = 4) := by
  rw [moveTargets_length_eq]
  split_ifs <;> omega

theorem get_neighbors_length_eq (s : State) :
    (get_neighbors s).length = (moveTargets (s.indexOf 0)).length := by
  unfold get_neighbors
  rw [List.length_map]

theorem get_neighbors_dir_form (s : State) :
    get_neighbors s = (dirList.filter (dirInBounds (s.indexOf 0))).map
      (fun d => swapAt s (s.indexOf 0) (dirTarget (s.indexOf 0) d)) := by
  by_cases h1 : 0 < s.indexOf 0 / 5 <;> by_cases h2 : s.indexOf 0 / 5 < 4 <;>
    by_cases h3 : 0 < s.indexOf 0 % 5 <;> by_cases h4 : s.indexOf 0 % 5 < 4 <;>
    simp [get_neighbors, moveTargets, dirList, dirInBounds, dirTarget, SIZE,
      h1, h2, h3, h4]

theorem get_neighbors_spec {s : State} (hs : ValidState s) :
    ∀ n ∈ get_neighbors s, ∃ j, j < 25 ∧ Adj (s.indexOf 0) j ∧
      n = swapAt s (s.indexOf 0) j ∧ s ∈ get_neighbors n := by
  intro n hn
  have hn2 := hn
  rw [mem_get_neighbors] at hn2
  obtain ⟨ni, hmem, heq⟩ := hn2
  obtain ⟨hlt, hne, hadj⟩ := mem_moveTargets_props _ _ hs.indexOf_zero_lt hmem
  exact ⟨ni, hlt, hadj, heq, mem_get_neighbors_symm hs hn⟩

/-! ### Paths as chains of moves -/

theorem getLast?_cons_ne {α : Type} (x : α) (l : List α) (h : l ≠ []) :
    (x :: l).getLast? = l.getLast? := by
  cases l with
  | nil => exact absurd rfl h
  | cons b t => simp [List.getLast?_cons_cons]

theorem reachN_cons {s y t : State} {k : Nat} (hedge : y ∈ get_neighbors s)
    (hr : ReachN k y t) : ReachN (k + 1) s t := by
  induction hr with
  | refl => exact ReachN.step (ReachN.refl s) hedge
  | step hr' hed ih => exact ReachN.step (ih hedge) hed

theorem chain_reachN :
    ∀ (p : List State) (s0 t : State), p.head? = some s0 → p.getLast? = some t →
      List.Chain' (fun a b => b ∈ get_neighbors a) p → ReachN (p.length - 1) s0 t := by
  intro p
  induction p with
  | nil => intro s0 t h; cases h
  | cons a l ih =>
    intro s0 t hh hl hc
    have ha : a = s0 := by
      simp only [List.head?_cons, Option.some_inj] at hh
      exact hh
    subst ha
    cases l with
    | nil =>
      simp only [List.getLast?_singleton, Option.some_inj] at hl
      subst hl
      exact ReachN.refl a
    | cons b l2 =>
      rw [List.chain'_cons'] at hc
      obtain ⟨hedge, hc2⟩ := hc
      have hbl : b ∈ get_neighbors a := hedge b (by simp)
      have hl2 : (b :: l2).getLast? = some t := by
        rw [← getLast?_cons_ne a (b :: l2) (by simp)]
        exact hl
      have := ih b t (by simp) hl2 hc2
      have hlen : (a :: b :: l2).length - 1 = ((b :: l2).length - 1) + 1 := by
        simp
      rw [hlen]
      exact reachN_cons hbl this

theorem chain_valid :
    ∀ (p : List State) (s0 : State), p.head? = some s0 → ValidState s0 →
      List.Chain' (fun a b => b ∈ get_neighbors a) p → ∀ x ∈ p, ValidState x := by
  intro p
  induction p with
  | nil => simp
  | cons a l ih =>
    intro s0 hh hv hc x hx
    have ha : a = s0 := by
      simp only [List.head?_cons, Option.some_inj] at hh
      exact hh
    subst ha
    rw [List.chain'_cons'] at hc
    obtain ⟨hedge, hc2⟩ := hc
    rcases List.mem_cons.mp hx with hxa | hxl
    · rw [hxa]
      exact hv
    · cases l with
      | nil => cases hxl
      | cons b l2 =>
        have hbv : ValidState b := neighbor_valid hv (hedge b (by simp))
        exact ih b (by simp) hbv hc2 x hxl

/-! ### DFS facts -/

theorem ancestorStates_succ (nodes : List DNode) (f i : Nat) :
    ancestorStates nodes (f + 1) i = (nodes.getD i default).state ::
      (match (nodes.getD i default).parent with
       | none => []
       | some p => ancestorStates nodes f p) := rfl

theorem is_on_current_path_succ (nodes : List DNode) (f i : Nat) (c : State) :
    is_on_current_path nodes (f + 1) i c =
      (if (nodes.getD i default).state = c then true
       else match (nodes.getD i default).parent with
            | none => false
            | some p => is_on_current_path nodes f p c) := rfl

theorem is_on_current_path_iff (nodes : List DNode) :
    ∀ (fuel i : Nat) (c : State),
      is_on_current_path nodes fuel i c = true ↔ c ∈ ancestorStates nodes fuel i := by
  intro fuel
  induction fuel with
  | zero =>
    intro i c
    simp [is_on_current_path, ancestorStates]
  | succ f ih =>
    intro i c
    rw [is_on_current_path_succ, ancestorStates_succ]
    by_cases hc : (nodes.getD i default).state = c
    · rw [if_pos hc]
      exact iff_of_true rfl (by rw [← hc]; exact List.mem_cons_self _ _)
    · rw [if_neg hc]
      cases hp : (nodes.getD i default).parent with
      | none =>
        simp only [hp]
        refine iff_of_false (by simp) ?_
        intro h
        rcases List.mem_cons.mp h with h1 | h1
        · exact hc h1.symm
        · cases h1
      | some p =>
        simp only [hp]
        rw [List.mem_cons]
        constructor
        · intro h
          exact Or.inr ((ih p c).mp h)
        · rintro (h | h)
          · exact absurd h.symm hc
          · exact (ih p c).mpr h

theorem anc_fuel_eq {start : State} {nodes : List DNode} (hwf : dnodeWf start nodes) :
    ∀ i, i < nodes.length → ∀ f₁ f₂, i < f₁ → i < f₂ →
      ancestorStates nodes f₁ i = ancestorStates nodes f₂ i := by
  intro i
  induction i using Nat.strong_induction_on with
  | _ i ih =>
    intro hi f₁ f₂ hf₁ hf₂
    obtain ⟨hne, hroot, hwf3⟩ := hwf
    cases f₁ with
    | zero => omega
    | succ a =>
      cases f₂ with
      | zero => omega
      | succ b =>
        rw [ancestorStates_succ, ancestorStates_succ]
        by_cases hi0 : i = 0
        · subst hi0
          rw [hroot]
        · obtain ⟨p, hp, hplt, -, -, -⟩ := hwf3 i (Nat.pos_of_ne_zero hi0) hi
          simp only [hp]
          rw [ih p hplt (lt_trans hplt hi) a b (by omega) (by omega)]

theorem anc_append {start : State} {nodes : List DNode} (hwf : dnodeWf start nodes)
    (ext : List DNode) :
    ∀ i, i < nodes.length → ∀ f, i < f →
      ancestorStates (nodes ++ ext) f i = ancestorStates nodes f i := by
  intro i
  induction i using Nat.strong_induction_on with
  | _ i ih =>
    intro hi f hf
    obtain ⟨hne, hroot, hwf3⟩ := hwf
    cases f with
    | zero => omega
    | succ a =>
      have hgd : (nodes ++ ext).getD i default = nodes.getD i default :=
        List.getD_append _ _ _ _ hi
      rw [ancestorStates_succ, ancestorStates_succ, hgd]
      by_cases hi0 : i = 0
      · subst hi0
        rw [hroot]
      · obtain ⟨p, hp, hplt, -, -, -⟩ := hwf3 i (Nat.pos_of_ne_zero hi0) hi
        simp only [hp]
        rw [ih p hplt (lt_trans hplt hi) a (by omega)]

theorem anc_spec {start : State} {nodes : List DNode} (hwf : dnodeWf start nodes) :
    ∀ i, i < nodes.length → ∀ f, i < f →
      (ancestorStates nodes f i).head? = some (nodes.getD i default).state ∧
      (ancestorStates nodes f i).getLast? = some start ∧
      (ancestorStates nodes f i).length = (nodes.getD i default).depth + 1 ∧
      List.Chain' (fun a b => a ∈ get_neighbors b) (ancestorStates nodes f i) ∧
      (ancestorStates nodes f i).Nodup := by
  intro i
  induction i using Nat.strong_induction_on with
  | _ i ih =>
    intro hi f hf
    obtain ⟨hne, hroot, hwf3⟩ := hwf
    cases f with
    | zero => omega
    | succ a =>
      rw [ancestorStates_succ]
      by_cases hi0 : i = 0
      · subst hi0
        rw [hroot]
        simp
      · obtain ⟨p, hp, hplt, hnbr, hdep, hnotin⟩ := hwf3 i (Nat.pos_of_ne_zero hi0) hi
        have hplen : p < nodes.length := lt_trans hplt hi
        have hpa : p < a := by omega
        obtain ⟨ihh, ihl, ihlen, ihch, ihnd⟩ := ih p hplt hplen a hpa
        have hanene : ancestorStates nodes a p ≠ [] := by
          intro h
          rw [h] at ihh
          cases ihh
        simp only [hp]
        refine ⟨rfl, ?_, ?_, ?_, ?_⟩
        · rw [getLast?_cons_ne _ _ hanene]
          exact ihl
        · rw [List.length_cons, ihlen, hdep]
        · rw [List.chain'_cons']
          constructor
          · intro y hy
            rw [ihh] at hy
            cases hy
            exact hnbr
          · exact ihch
        · rw [List.nodup_cons]
          constructor
          · rw [← anc_fuel_eq ⟨hne, hroot, hwf3⟩ p hplen a nodes.length hpa hplen] at hnotin
            exact hnotin
          · exact ihnd

theorem dnodeWf_nonempty {start : State} {nodes : List DNode}
    (hwf : dnodeWf start nodes) : 0 < nodes.length := by
  obtain ⟨hne, -, -⟩ := hwf
  cases nodes with
  | nil => exact absurd rfl hne
  | cons a t => simp

theorem dnodeWf_append {start : State} {nodes : List DNode} (hwf : dnodeWf start nodes)
    (n : State) (pidx : Nat) (hp : pidx < nodes.length)
    (hnbr : n ∈ get_neighbors ((nodes.getD pidx default).state))
    (hnot : n ∉ ancestorStates nodes nodes.length pidx) :
    dnodeWf start (nodes ++ [⟨n, some pidx, (nodes.getD pidx default).depth + 1⟩]) := by
  have hlen0 := dnodeWf_nonempty hwf
  obtain ⟨hne, hroot, hwf3⟩ := hwf
  refine ⟨by simp, ?_, ?_⟩
  · rw [List.getD_append _ _ _ _ hlen0]
    exact hroot
  · intro i hi0 hilen
    rw [List.length_append, List.length_cons, List.length_nil] at hilen
    by_cases hiold : i < nodes.length
    · obtain ⟨p, hpar, hplt, hnb, hdep, hnin⟩ := hwf3 i hi0 hiold
      have hplen : p < nodes.length := lt_trans hplt hiold
      refine ⟨p, ?_, hplt, ?_, ?_, ?_⟩
      · rw [List.getD_append _ _ _ _ hiold]
        exact hpar
      · rw [List.getD_append _ _ _ _ hiold, List.getD_append _ _ _ _ hplen]
        exact hnb
      · rw [List.getD_append _ _ _ _ hiold, List.getD_append _ _ _ _ hplen]
        exact hdep
      · rw [List.getD_append _ _ _ _ hiold]
        rw [anc_append ⟨hne, hroot, hwf3⟩ _ p hplen _ (by simp; omega)]
        rw [anc_fuel_eq ⟨hne, hroot, hwf3⟩ p hplen _ nodes.length (by simp; omega) hplen]
        exact hnin
    · have hieq : i = nodes.length := by omega
      have hgd : (nodes ++ [(⟨n, some pidx, (nodes.getD pidx default).depth + 1⟩ : DNode)]).getD i default
          = ⟨n, some pidx, (nodes.getD pidx default).depth + 1⟩ := by
        rw [List.getD_eq_getElem _ _ (by simp; omega)]
        exact List.getElem_concat_length _ _ _ hieq _
      refine ⟨pidx, ?_, by omega, ?_, ?_, ?_⟩
      · rw [hgd]
      · rw [hgd, List.getD_append _ _ _ _ hp]
        exact hnbr
      · rw [hgd, List.getD_append _ _ _ _ hp]
      · rw [hgd]
        rw [anc_append ⟨hne, hroot, hwf3⟩ _ pidx hp _ (by simp; omega)]
        rw [anc_fuel_eq ⟨hne, hroot, hwf3⟩ pidx hp _ nodes.length (by simp; omega) hp]
        exact hnot

theorem dfsExpand_nil (nl : Option Nat) (node_idx depth : Nat)
    (nodes : List DNode) (stack : List Nat) (stats : SearchStats) :
    dfsExpand nl node_idx depth [] nodes stack stats = (nodes, stack, stats) := rfl

theorem dfsExpand_cons_none (node_idx depth : Nat) (n : State)
    (rest : List State) (nodes : List DNode) (stack : List Nat) (stats : SearchStats) :
    dfsExpand none node_idx depth (n :: rest) nodes stack stats =
      if is_on_current_path nodes nodes.length node_idx n then
        dfsExpand none node_idx depth rest nodes stack stats
      else
        dfsExpand none node_idx depth rest
          (nodes ++ [(⟨n, some node_idx, depth + 1⟩ : DNode)])
          (((nodes ++ [(⟨n, some node_idx, depth + 1⟩ : DNode)]).length - 1) :: stack)
          { stats with generated := stats.generated + 1 } := rfl

theorem dfsExpand_cons_some (lim : Nat) (node_idx depth : Nat) (n : State)
    (rest : List State) (nodes : List DNode) (stack : List Nat) (stats : SearchStats) :
    dfsExpand (some lim) node_idx depth (n :: rest) nodes stack stats =
      if is_on_current_path nodes nodes.length node_idx n then
        dfsExpand (some lim) node_idx depth rest nodes stack stats
      else if lim ≤ stats.generated + 1 then
        (nodes ++ [(⟨n, some node_idx, depth + 1⟩ : DNode)], [],
          { stats with generated := stats.generated + 1,
                       stopped_reason := some (nodeLimitMsg lim) })
      else
        dfsExpand (some lim) node_idx depth rest
          (nodes ++ [(⟨n, some node_idx, depth + 1⟩ : DNode)])
          (((nodes ++ [(⟨n, some node_idx, depth + 1⟩ : DNode)]).length - 1) :: stack)
          { stats with generated := stats.generated + 1 } := rfl

theorem dfsExpand_inv (start : State) (dl : Nat) (nl : Option Nat) (node_idx : Nat) :
    ∀ (l : List State) (nodes : List DNode) (stack : List Nat) (stats : SearchStats)
      (dep : Nat) (nodes' : List DNode) (stack' : List Nat) (stats' : SearchStats),
      DfsInv start dl nodes stack →
      node_idx < nodes.length →
      (∀ x ∈ l, x ∈ get_neighbors ((nodes.getD node_idx default).state)) →
      dep = (nodes.getD node_idx default).depth →
      dep < dl →
      dfsExpand nl node_idx dep l nodes stack stats = (nodes', stack', stats') →
      DfsInv start dl nodes' stack' := by
  intro l
  induction l with
  | nil =>
    intro nodes stack stats dep nodes' stack' stats' hinv hidx hsub hdeq hdep heq
    rw [dfsExpand_nil] at heq
    cases heq
    exact hinv
  | cons n rest ih =>
    intro nodes stack stats dep nodes' stack' stats' hinv hidx hsub hdeq hdep heq
    obtain ⟨hwf, hsmem, hdepb⟩ := hinv
    have hfresh : ¬ is_on_current_path nodes nodes.length node_idx n = true →
        DfsInv start dl
          (nodes ++ [(⟨n, some node_idx, dep + 1⟩ : DNode)])
          (((nodes ++ [(⟨n, some node_idx, dep + 1⟩ : DNode)]).length - 1) :: stack) := by
      intro hpath
      have hnot : n ∉ ancestorStates nodes nodes.length node_idx := by
        intro hmem
        exact hpath ((is_on_current_path_iff nodes nodes.length node_idx n).mpr hmem)
      have hwf2 : dnodeWf start (nodes ++ [(⟨n, some node_idx, dep + 1⟩ : DNode)]) := by
        rw [hdeq]
        exact dnodeWf_append hwf n node_idx hidx (hsub n (List.mem_cons_self n rest)) hnot
      refine ⟨hwf2, ?_, ?_⟩
      · intro i hi
        simp only [List.length_append, List.length_cons, List.length_nil]
        rcases List.mem_cons.mp hi with h1 | h1
        · simp only [List.length_append, List.length_cons, List.length_nil] at h1
          omega
        · exact lt_trans (hsmem i h1) (by omega)
      · intro i hi
        simp only [List.length_append, List.length_cons, List.length_nil] at hi
        by_cases hiold : i < nodes.length
        · rw [List.getD_append _ _ _ _ hiold]
          exact hdepb i hiold
        · have hieq : i = nodes.length := by omega
          have hgdi : (nodes ++ [(⟨n, some node_idx, dep + 1⟩ : DNode)]).getD i default
              = ⟨n, some node_idx, dep + 1⟩ := by
            rw [List.getD_eq_getElem _ _ (by simp; omega)]
            exact List.getElem_concat_length _ _ _ hieq _
          rw [hgdi]
          exact hdep
    have hgd2 : (nodes ++ [(⟨n, some node_idx, dep + 1⟩ : DNode)]).getD node_idx default
        = nodes.getD node_idx default := List.getD_append _ _ _ _ hidx
    have hlen2 : (nodes ++ [(⟨n, some node_idx, dep + 1⟩ : DNode)]).length
        = nodes.length + 1 := by
      simp
    cases nl with
    | none =>
      rw [dfsExpand_cons_none] at heq
      by_cases hpath : is_on_current_path nodes nodes.length node_idx n
      · rw [if_pos hpath] at heq
        exact ih nodes stack stats dep nodes' stack' stats' ⟨hwf, hsmem, hdepb⟩ hidx
          (fun x hx => hsub x (List.mem_cons_of_mem n hx)) hdeq hdep heq
      · rw [if_neg hpath] at heq
        exact ih _ _ _ dep nodes' stack' stats' (hfresh hpath) (by rw [hlen2]; omega)
          (fun x hx => by rw [hgd2]; exact hsub x (List.mem_cons_of_mem n hx))
          (by rw [hgd2]; exact hdeq) hdep heq
    | some lim =>
      rw [dfsExpand_cons_some] at heq
      by_cases hpath : is_on_current_path nodes nodes.length node_idx n
      · rw [if_pos hpath] at heq
        exact ih nodes stack stats dep nodes' stack' stats' ⟨hwf, hsmem, hdepb⟩ hidx
          (fun x hx => hsub x (List.mem_cons_of_mem n hx)) hdeq hdep heq
      · rw [if_neg hpath] at heq
        by_cases hlim : lim ≤ stats.generated + 1
        · rw [if_pos hlim] at heq
          cases heq
          obtain ⟨hwf2, -, hd2⟩ := hfresh hpath
          exact ⟨hwf2, by simp, hd2⟩
        · rw [if_neg hlim] at heq
          exact ih _ _ _ dep nodes' stack' stats' (hfresh hpath) (by rw [hlen2]; omega)
            (fun x hx => by rw [hgd2]; exact hsub x (List.mem_cons_of_mem n hx))
            (by rw [hgd2]; exact hdeq) hdep heq

theorem dfsLoop_zero (nl : Option Nat) (dl : Nat) (nodes : List DNode)
    (stack : List Nat) (stats : SearchStats) :
    dfsLoop nl dl 0 nodes stack stats = (none, stats) := rfl

theorem dfsLoop_nil (nl : Option Nat) (dl fuel : Nat) (nodes : List DNode)
    (stats : SearchStats) :
    dfsLoop nl dl (fuel + 1) nodes [] stats = (none, stats) := rfl

theorem dfsLoop_cons (nl : Option Nat) (dl fuel : Nat) (nodes : List DNode)
    (node_idx : Nat) (rest : List Nat) (stats : SearchStats) :
    dfsLoop nl dl (fuel + 1) nodes (node_idx :: rest) stats =
      if (nodes.getD node_idx default).state = GOAL_STATE then
        (some ((ancestorStates nodes nodes.length node_idx).reverse),
         { stats with max_frontier := max stats.max_frontier (rest.length + 1),
                      found := true,
                      solution_moves :=
                        some ((ancestorStates nodes nodes.length node_idx).reverse.length - 1) })
      else if dl ≤ (nodes.getD node_idx default).depth then
        dfsLoop nl dl fuel nodes rest
          { stats with max_frontier := max stats.max_frontier (rest.length + 1) }
      else
        (match dfsExpand nl node_idx (nodes.getD node_idx default).depth
            (get_neighbors (nodes.getD node_idx default).state) nodes rest
            { stats with max_frontier := max stats.max_frontier (rest.length + 1),
                         expanded := stats.expanded + 1 } with
         | (nodes', stack', stats') => dfsLoop nl dl fuel nodes' stack' stats') := rfl

theorem dfsLoop_sound (start : State) (dl : Nat) (nl : Option Nat) :
    ∀ (fuel : Nat) (nodes : List DNode) (stack : List Nat) (stats : SearchStats)
      (path : List State) (stats' : SearchStats),
      DfsInv start dl nodes stack →
      dfsLoop nl dl fuel nodes stack stats = (some path, stats') →
      path.head? = some start ∧ path.getLast? = some GOAL_STATE ∧
      List.Chain' (fun a b => b ∈ get_neighbors a) path ∧
      path.Nodup ∧ path.length - 1 ≤ dl ∧
      stats'.solution_moves = some (path.length - 1) ∧ stats'.found = true := by
  intro fuel
  induction fuel with
  | zero =>
    intro nodes stack stats path stats' hinv heq
    rw [dfsLoop_zero] at heq
    simp at heq
  | succ f ih =>
    intro nodes stack stats path stats' hinv heq
    cases stack with
    | nil =>
      rw [dfsLoop_nil] at heq
      simp at heq
    | cons node_idx rest =>
      rw [dfsLoop_cons] at heq
      obtain ⟨hwf, hsmem, hdepb⟩ := hinv
      have hidx : node_idx < nodes.length := hsmem node_idx (List.mem_cons_self _ _)
      by_cases hgoal : (nodes.getD node_idx default).state = GOAL_STATE
      · rw [if_pos hgoal] at heq
        rw [Prod.mk.injEq] at heq
        obtain ⟨h1, h2⟩ := heq
        injection h1 with h1
        subst h1
        obtain ⟨hh, hl, hlen, hch, hnd⟩ := anc_spec hwf node_idx hidx nodes.length hidx
        refine ⟨?_, ?_, ?_, ?_, ?_, ?_, ?_⟩
        · rw [List.head?_reverse]
          exact hl
        · rw [List.getLast?_reverse, hh, hgoal]
        · rw [List.chain'_reverse]
          exact hch
        · rw [List.nodup_reverse]
          exact hnd
        · rw [List.length_reverse, hlen]
          have := hdepb node_idx hidx
          omega
        · rw [← h2]
        · rw [← h2]
      · rw [if_neg hgoal] at heq
        by_cases hdl : dl ≤ (nodes.getD node_idx default).depth
        · rw [if_pos hdl] at heq
          exact ih nodes rest _ path stats'
            ⟨hwf, fun i hi => hsmem i (List.mem_cons_of_mem _ hi), hdepb⟩ heq
        · rw [if_neg hdl] at heq
          rcases hde : dfsExpand nl node_idx (nodes.getD node_idx default).depth
              (get_neighbors (nodes.getD node_idx default).state) nodes rest
              { stats with max_frontier := max stats.max_frontier (rest.length + 1),
                           expanded := stats.expanded + 1 }
            with ⟨nodes2, stack2, stats2⟩
          simp only [hde] at heq
          have hinv2 := dfsExpand_inv start dl nl node_idx
            (get_neighbors (nodes.getD node_idx default).state) nodes rest
            { stats with max_frontier := max stats.max_frontier (rest.length + 1),
                         expanded := stats.expanded + 1 }
            (nodes.getD node_idx default).depth nodes2 stack2 stats2
            ⟨hwf, fun i hi => hsmem i (List.mem_cons_of_mem _ hi), hdepb⟩
            hidx (fun x hx => hx) rfl (by omega) hde
          exact ih nodes2 stack2 stats2 path stats' hinv2 heq

theorem dfsInit_inv (start : State) (dl : Nat) :
    DfsInv start dl [⟨start, none, 0⟩] [0] := by
  refine ⟨⟨by simp, rfl, ?_⟩, ?_, ?_⟩
  · intro i h1 h2
    simp at h2
    omega
  · intro i hi
    rcases List.mem_singleton.mp hi with rfl
    simp
  · intro i hi
    simp at hi
    subst hi
    exact Nat.zero_le dl

theorem dfs_depth_limited_sound (start : State) (dl : Nat) (nl : Option Nat)
    (fuel : Nat) (path : List State) (stats' : SearchStats)
    (heq : dfs_depth_limited start dl nl fuel = (some path, stats')) :
    path.head? = some start ∧ path.getLast? = some GOAL_STATE ∧
    List.Chain' (fun a b => b ∈ get_neighbors a) path ∧
    path.Nodup ∧ path.length - 1 ≤ dl ∧
    stats'.solution_moves = some (path.length - 1) ∧ stats'.found = true :=
  dfsLoop_sound start dl nl fuel _ _ _ path stats' (dfsInit_inv start dl) heq

/-! ### BFS facts -/

theorem keysOf_cons (k : State) (v : Option State) (P : List (State × Option State)) :
    keysOf ((k, v) :: P) = k :: keysOf P := rfl

theorem alookup_cons_self (k : State) (v : Option State) (P : List (State × Option State)) :
    alookup ((k, v) :: P) k = some v := by
  simp [alookup]

theorem alookup_cons_ne (k : State) (v : Option State) (P : List (State × Option State))
    (s : State) (h : k ≠ s) : alookup ((k, v) :: P) s = alookup P s := by
  simp [alookup, h]

theorem alookup_isSome_iff (P : List (State × Option State)) (s : State) :
    (alookup P s).isSome = true ↔ s ∈ keysOf P := by
  induction P with
  | nil => simp [alookup, keysOf]
  | cons kv rest ih =>
    obtain ⟨k, v⟩ := kv
    rw [keysOf_cons]
    by_cases hk : k = s
    · subst hk
      rw [alookup_cons_self]
      simp
    · rw [alookup_cons_ne _ _ _ _ hk, List.mem_cons, ih]
      constructor
      · intro h
        exact Or.inr h
      · rintro (h | h)
        · exact absurd h.symm hk
        · exact h

theorem mem_keysOf_of_lookup {P : List (State × Option State)} {s : State}
    {v : Option State} (h : alookup P s = some v) : s ∈ keysOf P := by
  rw [← alookup_isSome_iff, h]
  rfl

theorem reach_crossing (start : State) :
    ∀ {m : Nat} {n : State}, ReachN m start n →
    ∀ (P : List (State × Option State)), start ∈ keysOf P → n ∉ keysOf P →
    ∃ j w v, j < m ∧ ReachN j start w ∧ w ∈ keysOf P ∧ v ∉ keysOf P ∧
      v ∈ get_neighbors w := by
  intro m n hr
  induction hr with
  | refl =>
    intro P hs hn
    exact absurd hs hn
  | @step k s t u hr' hedge ih =>
    intro P hs hn
    by_cases ht : t ∈ keysOf P
    · exact ⟨k, t, u, Nat.lt_succ_self k, hr', ht, hn, hedge⟩
    · obtain ⟨j, w, v, hj, h2, h3, h4, h5⟩ := ih P hs ht
      exact ⟨j, w, v, Nat.lt_succ_of_lt hj, h2, h3, h4, h5⟩

theorem reconstruct_succ (P : List (State × Option State)) (fuel : Nat) (cur : State) :
    reconstruct P (fuel + 1) cur =
      match alookup P cur with
      | none => [cur]
      | some none => [cur]
      | some (some p) => cur :: reconstruct P fuel p := rfl

theorem reconstruct_spec (start : State) (δ : State → Nat)
    (P : List (State × Option State))
    (hroot : alookup P start = some none)
    (hps : ∀ s ∈ keysOf P, s ≠ start →
      ∃ w, alookup P s = some (some w) ∧ w ∈ keysOf P ∧ s ∈ get_neighbors w ∧ δ s = δ w + 1)
    (hd0 : δ start = 0) :
    ∀ (fuel : Nat) (s : State), s ∈ keysOf P → δ s < fuel →
      (reconstruct P fuel s).head? = some s ∧
      (reconstruct P fuel s).getLast? = some start ∧
      (reconstruct P fuel s).length = δ s + 1 ∧
      List.Chain' (fun a b => a ∈ get_neighbors b) (reconstruct P fuel s) ∧
      (reconstruct P fuel s).Nodup ∧ (∀ x ∈ reconstruct P fuel s, δ x ≤ δ s) := by
  intro fuel
  induction fuel with
  | zero =>
    intro s hmem hlt
    omega
  | succ f ih =>
    intro s hmem hlt
    rw [reconstruct_succ]
    by_cases hs : s = start
    · subst hs
      simp only [hroot]
      refine ⟨rfl, rfl, by rw [hd0]; rfl, by simp, by simp, ?_⟩
      intro x hx
      rcases List.mem_singleton.mp hx with rfl
      exact le_refl _
    · obtain ⟨w, hlook, hwmem, hnbr, hδ⟩ := hps s hmem hs
      have hwlt : δ w < f := by omega
      obtain ⟨ihh, ihl, ihlen, ihch, ihnd, ihbd⟩ := ih w hwmem hwlt
      have hne : reconstruct P f w ≠ [] := by
        intro h
        rw [h] at ihh
        cases ihh
      simp only [hlook]
      refine ⟨rfl, ?_, ?_, ?_, ?_, ?_⟩
      · rw [getLast?_cons_ne _ _ hne]
        exact ihl
      · rw [List.length_cons, ihlen, hδ]
      · rw [List.chain'_cons']
        constructor
        · intro y hy
          rw [ihh] at hy
          cases hy
          exact hnbr
        · exact ihch
      · rw [List.nodup_cons]
        refine ⟨?_, ihnd⟩
        intro hmem2
        have := ihbd s hmem2
        omega
      · intro x hx
        rcases List.mem_cons.mp hx with rfl | hx2
        · exact le_refl _
        · have := ihbd x hx2
          omega

theorem bfsMid_start_mem {start : State} {δ : State → Nat} {u : State} {l Q : List State}
    {P : List (State × Option State)} (hmid : BfsMid start δ u l Q P) :
    start ∈ keysOf P :=
  mem_keysOf_of_lookup hmid.root_lookup

theorem bfsMid_insert {start : State} {δ : State → Nat} {u n : State} {rest : List State}
    {Q : List State} {P : List (State × Option State)}
    (hmid : BfsMid start δ u (n :: rest) Q P) (hn : n ∉ keysOf P) :
    BfsMid start (fun x => if x = n then δ u + 1 else δ x) u rest (Q ++ [n])
      ((n, some u) :: P) := by
  have hstart : start ∈ keysOf P := bfsMid_start_mem hmid
  have hnstart : n ≠ start := fun e => hn (e ▸ hstart)
  have hune : u ≠ n := fun e => hn (e ▸ hmid.umem)
  have hδeq : ∀ s ∈ keysOf P, (if s = n then δ u + 1 else δ s) = δ s := by
    intro s hs
    exact if_neg (fun e : s = n => hn (e ▸ hs))
  have hnedge : n ∈ get_neighbors u := hmid.lsub n (List.mem_cons_self n rest)
  have hoptn : ∀ m, ReachN m start n → δ u + 1 ≤ m := by
    intro m hm
    by_contra hcon
    have hmle : m ≤ δ u := by omega
    obtain ⟨j, w, v, hj, hrw, hwK, hvK, hvw⟩ := reach_crossing start hm P hstart hn
    have hwQ : w ∈ Q ∨ w = u := by
      by_contra hc
      push_neg at hc
      exact hvK (hmid.closed_mid w hwK hc.1 hc.2 v hvw)
    have hδw : δ u ≤ δ w := by
      rcases hwQ with h | h
      · exact (hmid.qbound w h).1
      · rw [h]
    have := hmid.opt w hwK j hrw
    omega
  refine ⟨?_, ?_, ?_, ?_, ?_, ?_, ?_, ?_, ?_, ?_, ?_, ?_, ?_⟩
  · rw [alookup_cons_ne _ _ _ _ hnstart]
    exact hmid.root_lookup
  · rw [if_neg (Ne.symm hnstart)]
    exact hmid.root_delta
  · intro s hs hsstart
    rw [keysOf_cons] at hs
    rcases List.mem_cons.mp hs with rfl | hs2
    · refine ⟨u, alookup_cons_self _ _ _, ?_, hnedge, ?_⟩
      · rw [keysOf_cons]
        exact List.mem_cons_of_mem _ hmid.umem
      · simp [hune]
    · have hsn : s ≠ n := fun e => hn (e ▸ hs2)
      obtain ⟨w, hlook, hwmem, hnbr, hδ⟩ := hmid.parent_spec s hs2 hsstart
      have hwn : w ≠ n := fun e => hn (e ▸ hwmem)
      refine ⟨w, ?_, ?_, hnbr, ?_⟩
      · rw [alookup_cons_ne _ _ _ _ (Ne.symm hsn)]
        exact hlook
      · rw [keysOf_cons]
        exact List.mem_cons_of_mem _ hwmem
      · simp [hsn, hwn]
        exact hδ
  · intro s hs
    rw [keysOf_cons] at hs
    rcases List.mem_cons.mp hs with rfl | hs2
    · rw [if_pos rfl]
      exact ReachN.step (hmid.reach u hmid.umem) hnedge
    · rw [hδeq s hs2]
      exact hmid.reach s hs2
  · intro s hs m hm
    rw [keysOf_cons] at hs
    rcases List.mem_cons.mp hs with rfl | hs2
    · rw [if_pos rfl]
      exact hoptn m hm
    · rw [hδeq s hs2]
      exact hmid.opt s hs2 m hm
  · intro s hs
    rw [keysOf_cons] at hs
    rw [List.length_cons]
    rcases List.mem_cons.mp hs with rfl | hs2
    · rw [if_pos rfl]
      have := hmid.dbound u hmid.umem
      omega
    · rw [hδeq s hs2]
      have := hmid.dbound s hs2
      omega
  · rw [keysOf_cons]
    exact List.mem_cons_of_mem _ hmid.umem
  · intro q hq
    rw [keysOf_cons]
    rcases List.mem_append.mp hq with h | h
    · exact List.mem_cons_of_mem _ (hmid.qmem q h)
    · rcases List.mem_singleton.mp h with rfl
      exact List.mem_cons_self _ _
  · rw [List.pairwise_append]
    refine ⟨?_, List.pairwise_singleton _ _, ?_⟩
    · refine List.Pairwise.imp_of_mem ?_ hmid.qord
      intro a b ha hb hab
      rw [hδeq a (hmid.qmem a ha), hδeq b (hmid.qmem b hb)]
      exact hab
    · intro a ha b hb
      rcases List.mem_singleton.mp hb with rfl
      rw [hδeq a (hmid.qmem a ha), if_pos rfl]
      obtain ⟨h1, h2⟩ := hmid.qbound a ha
      exact ⟨h2, by omega⟩
  · intro q hq
    rw [hδeq u hmid.umem]
    rcases List.mem_append.mp hq with h | h
    · rw [hδeq q (hmid.qmem q h)]
      exact hmid.qbound q h
    · rcases List.mem_singleton.mp h with rfl
      rw [if_pos rfl]
      omega
  · intro s hs hsq hsu
    rw [keysOf_cons] at hs
    rcases List.mem_cons.mp hs with rfl | hs2
    · exact absurd (List.mem_append_right Q (List.mem_singleton_self s)) hsq
    · intro m hm
      rw [keysOf_cons]
      refine List.mem_cons_of_mem _ ?_
      exact hmid.closed_mid s hs2 (fun hc => hsq (List.mem_append_left _ hc)) hsu m hm
  · intro x hx
    rcases hmid.udone x hx with h | h
    · rcases List.mem_cons.mp h with rfl | h2
      · right
        rw [keysOf_cons]
        exact List.mem_cons_self _ _
      · exact Or.inl h2
    · right
      rw [keysOf_cons]
      exact List.mem_cons_of_mem _ h
  · intro x hx
    exact hmid.lsub x (List.mem_cons_of_mem n hx)

theorem bfsInv_of_mid_nil {start : State} {δ : State → Nat} {u : State} {Q : List State}
    {P : List (State × Option State)} (hmid : BfsMid start δ u [] Q P) :
    BfsInv start δ Q P := by
  refine ⟨hmid.root_lookup, hmid.root_delta, hmid.parent_spec, hmid.reach, hmid.opt,
    hmid.qmem, hmid.qord, ?_, hmid.dbound⟩
  intro s hs hsq m hm
  by_cases hsu : s = u
  · subst hsu
    rcases hmid.udone m hm with h | h
    · cases h
    · exact h
  · exact hmid.closed_mid s hs hsq hsu m hm

theorem bfsMid_of_inv {start : State} {δ : State → Nat} {u : State} {rest : List State}
    {P : List (State × Option State)} (hinv : BfsInv start δ (u :: rest) P) :
    BfsMid start δ u (get_neighbors u) rest P := by
  have humem : u ∈ keysOf P := hinv.qmem u (List.mem_cons_self _ _)
  obtain ⟨hhead, htail⟩ := List.pairwise_cons.mp hinv.qord
  refine ⟨hinv.root_lookup, hinv.root_delta, hinv.parent_spec, hinv.reach, hinv.opt,
    hinv.dbound, humem, ?_, htail, ?_, ?_, ?_, ?_⟩
  · intro q hq
    exact hinv.qmem q (List.mem_cons_of_mem _ hq)
  · intro q hq
    exact hhead q hq
  · intro s hs hsq hsu
    refine hinv.closed (s := s) hs ?_
    intro hc
    rcases List.mem_cons.mp hc with h | h
    · exact hsu h
    · exact hsq h
  · intro x hx
    exact Or.inl hx
  · intro x hx
    exact hx

theorem expandLoop_nil (nl : Option Nat) (state : State) (queue : List State)
    (parent : List (State × Option State)) (stats : SearchStats) :
    expandLoop nl state [] queue parent stats = (queue, parent, stats) := rfl

theorem expandLoop_cons_none (state n : State) (rest queue : List State)
    (parent : List (State × Option State)) (stats : SearchStats) :
    expandLoop none state (n :: rest) queue parent stats =
      if (alookup parent n).isSome then
        expandLoop none state rest queue parent stats
      else
        expandLoop none state rest (queue ++ [n]) ((n, some state) :: parent)
          { stats with generated := stats.generated + 1 } := rfl

theorem expandLoop_cons_some (lim : Nat) (state n : State) (rest queue : List State)
    (parent : List (State × Option State)) (stats : SearchStats) :
    expandLoop (some lim) state (n :: rest) queue parent stats =
      if (alookup parent n).isSome then
        expandLoop (some lim) state rest queue parent stats
      else if lim ≤ stats.generated + 1 then
        ([], (n, some state) :: parent,
         { stats with generated := stats.generated + 1,
                      stopped_reason := some (nodeLimitMsg lim) })
      else
        expandLoop (some lim) state rest (queue ++ [n]) ((n, some state) :: parent)
          { stats with generated := stats.generated + 1 } := rfl

theorem expandLoop_inv (start : State) (nl : Option Nat) (u : State) :
    ∀ (l Q : List State) (P : List (State × Option State)) (stats : SearchStats)
      (δ : State → Nat) (Q' : List State) (P' : List (State × Option State))
      (stats' : SearchStats),
      BfsMid start δ u l Q P →
      expandLoop nl u l Q P stats = (Q', P', stats') →
      Q' = [] ∨ ∃ δ', BfsInv start δ' Q' P' := by
  intro l
  induction l with
  | nil =>
    intro Q P stats δ Q' P' stats' hmid heq
    rw [expandLoop_nil] at heq
    cases heq
    exact Or.inr ⟨δ, bfsInv_of_mid_nil hmid⟩
  | cons n rest ih =>
    intro Q P stats δ Q' P' stats' hmid heq
    have hskip : (alookup P n).isSome = true →
        BfsMid start δ u rest Q P := by
      intro hmem
      have hnk : n ∈ keysOf P := (alookup_isSome_iff P n).mp hmem
      refine ⟨hmid.root_lookup, hmid.root_delta, hmid.parent_spec, hmid.reach, hmid.opt,
        hmid.dbound, hmid.umem, hmid.qmem, hmid.qord, hmid.qbound, hmid.closed_mid, ?_, ?_⟩
      · intro x hx
        rcases hmid.udone x hx with h | h
        · rcases List.mem_cons.mp h with rfl | h2
          · exact Or.inr hnk
          · exact Or.inl h2
        · exact Or.inr h
      · intro x hx
        exact hmid.lsub x (List.mem_cons_of_mem n hx)
    cases nl with
    | none =>
      rw [expandLoop_cons_none] at heq
      by_cases hmem : (alookup P n).isSome
      · rw [if_pos hmem] at heq
        exact ih Q P stats δ Q' P' stats' (hskip hmem) heq
      · rw [if_neg hmem] at heq
        have hnk : n ∉ keysOf P := by
          rw [← alookup_isSome_iff]
          simpa using hmem
        exact ih _ _ _ _ Q' P' stats' (bfsMid_insert hmid hnk) heq
    | some lim =>
      rw [expandLoop_cons_some] at heq
      by_cases hmem : (alookup P n).isSome
      · rw [if_pos hmem] at heq
        exact ih Q P stats δ Q' P' stats' (hskip hmem) heq
      · rw [if_neg hmem] at heq
        have hnk : n ∉ keysOf P := by
          rw [← alookup_isSome_iff]
          simpa using hmem
        by_cases hlim : lim ≤ stats.generated + 1
        · rw [if_pos hlim] at heq
          cases heq
          exact Or.inl rfl
        · rw [if_neg hlim] at heq
          exact ih _ _ _ _ Q' P' stats' (bfsMid_insert hmid hnk) heq

theorem bfsLoop_zero (nl : Option Nat) (queue : List State)
    (parent : List (State × Option State)) (stats : SearchStats) :
    bfsLoop nl 0 queue parent stats = (none, stats) := rfl

theorem bfsLoop_nil (nl : Option Nat) (fuel : Nat)
    (parent : List (State × Option State)) (stats : SearchStats) :
    bfsLoop nl (fuel + 1) [] parent stats = (none, stats) := rfl

theorem bfsLoop_cons (nl : Option Nat) (fuel : Nat) (state : State) (rest : List State)
    (parent : List (State × Option State)) (stats : SearchStats) :
    bfsLoop nl (fuel + 1) (state :: rest) parent stats =
      if state = GOAL_STATE then
        (some ((reconstruct parent (parent.length + 1) state).reverse),
         { stats with max_frontier := max stats.max_frontier (rest.length + 1),
                      found := true,
                      solution_moves :=
                        some ((reconstruct parent (parent.length + 1) state).reverse.length - 1) })
      else
        (match expandLoop nl state (get_neighbors state) rest parent
            { stats with max_frontier := max stats.max_frontier (rest.length + 1),
                         expanded := stats.expanded + 1 } with
         | (queue', parent', stats') => bfsLoop nl fuel queue' parent' stats') := rfl

theorem bfsLoop_sound (start : State) (nl : Option Nat) :
    ∀ (fuel : Nat) (Q : List State) (P : List (State × Option State))
      (stats : SearchStats) (δ : State → Nat) (path : List State) (stats' : SearchStats),
      BfsInv start δ Q P →
      bfsLoop nl fuel Q P stats = (some path, stats') →
      path.head? = some start ∧ path.getLast? = some GOAL_STATE ∧
      List.Chain' (fun a b => b ∈ get_neighbors a) path ∧ path.Nodup ∧
      ReachN (path.length - 1) start GOAL_STATE ∧
      (∀ m, ReachN m start GOAL_STATE → path.length - 1 ≤ m) ∧
      stats'.solution_moves = some (path.length - 1) ∧ stats'.found = true := by
  intro fuel
  induction fuel with
  | zero =>
    intro Q P stats δ path stats' hinv heq
    rw [bfsLoop_zero] at heq
    simp at heq
  | succ f ih =>
    intro Q P stats δ path stats' hinv heq
    cases Q with
    | nil =>
      rw [bfsLoop_nil] at heq
      simp at heq
    | cons state rest =>
      rw [bfsLoop_cons] at heq
      by_cases hgoal : state = GOAL_STATE
      · rw [if_pos hgoal] at heq
        rw [Prod.mk.injEq] at heq
        obtain ⟨h1, h2⟩ := heq
        injection h1 with h1
        subst h1
        have hmem : state ∈ keysOf P := hinv.qmem state (List.mem_cons_self _ _)
        have hdlt : δ state < P.length + 1 := by
          have := hinv.dbound state hmem
          omega
        obtain ⟨hh, hl, hlen, hch, hnd, -⟩ := reconstruct_spec start δ P
          hinv.root_lookup hinv.parent_spec hinv.root_delta (P.length + 1) state hmem hdlt
        have hlen2 : (reconstruct P (P.length + 1) state).reverse.length - 1 = δ state := by
          rw [List.length_reverse, hlen]
          omega
        refine ⟨?_, ?_, ?_, ?_, ?_, ?_, ?_, ?_⟩
        · rw [List.head?_reverse]
          exact hl
        · rw [List.getLast?_reverse, hh, hgoal]
        · rw [List.chain'_reverse]
          exact hch
        · rw [List.nodup_reverse]
          exact hnd
        · rw [hlen2, ← hgoal]
          exact hinv.reach state hmem
        · intro m hm
          rw [hlen2]
          refine hinv.opt state hmem m ?_
          rw [hgoal]
          exact hm
        · rw [← h2]
        · rw [← h2]
      · rw [if_neg hgoal] at heq
        rcases hde : expandLoop nl state (get_neighbors state) rest P
            { stats with max_frontier := max stats.max_frontier (rest.length + 1),
                         expanded := stats.expanded + 1 }
          with ⟨queue2, parent2, stats2⟩
        simp only [hde] at heq
        rcases expandLoop_inv start nl state (get_neighbors state) rest P
            { stats with max_frontier := max stats.max_frontier (rest.length + 1),
                         expanded := stats.expanded + 1 }
            δ queue2 parent2 stats2 (bfsMid_of_inv hinv) hde with hq2 | ⟨δ2, hinv2⟩
        · subst hq2
          cases f with
          | zero =>
            rw [bfsLoop_zero] at heq
            simp at heq
          | succ f2 =>
            rw [bfsLoop_nil] at heq
            simp at heq
        · exact ih queue2 parent2 stats2 δ2 path stats' hinv2 heq

theorem bfsInit_inv (start : State) :
    BfsInv start (fun _ => 0) [start] [(start, none)] := by
  refine ⟨alookup_cons_self _ _ _, rfl, ?_, ?_, ?_, ?_, ?_, ?_, ?_⟩
  · intro s hs hsstart
    rw [keysOf_cons] at hs
    rcases List.mem_cons.mp hs with rfl | hs2
    · exact absurd rfl hsstart
    · cases hs2
  · intro s hs
    rw [keysOf_cons] at hs
    rcases List.mem_cons.mp hs with rfl | hs2
    · exact ReachN.refl s
    · cases hs2
  · intro s hs m hm
    exact Nat.zero_le m
  · intro q hq
    rcases List.mem_singleton.mp hq with rfl
    rw [keysOf_cons]
    exact List.mem_cons_self _ _
  · exact List.pairwise_singleton _ _
  · intro s hs hsq
    rw [keysOf_cons] at hs
    rcases List.mem_cons.mp hs with rfl | hs2
    · exact absurd (List.mem_singleton_self s) hsq
    · cases hs2
  · intro s hs
    simp

theorem bfs_sound (start : State) (nl : Option Nat) (fuel : Nat)
    (path : List State) (stats' : SearchStats)
    (heq : bfs start nl fuel = (some path, stats')) :
    path.head? = some start ∧ path.getLast? = some GOAL_STATE ∧
    List.Chain' (fun a b => b ∈ get_neighbors a) path ∧ path.Nodup ∧
    ReachN (path.length - 1) start GOAL_STATE ∧
    (∀ m, ReachN m start GOAL_STATE → path.length - 1 ≤ m) ∧
    stats'.solution_moves = some (path.length - 1) ∧ stats'.found = true :=
  bfsLoop_sound start nl fuel [start] [(start, none)] initStats (fun _ => 0)
    path stats' (bfsInit_inv start) heq

/-! ### Node-limit behavior -/

theorem expandLoop_stats (nl : Option Nat) (u : State) :
    ∀ (l Q : List State) (P : List (State × Option State)) (stats : SearchStats)
      (Q' : List State) (P' : List (State × Option State)) (stats' : SearchStats),
      expandLoop nl u l Q P stats = (Q', P', stats') →
      stats'.found = stats.found ∧
      (stats'.stopped_reason = stats.stopped_reason ∨ Q' = []) := by
  intro l
  induction l with
  | nil =>
    intro Q P stats Q' P' stats' heq
    rw [expandLoop_nil] at heq
    cases heq
    exact ⟨rfl, Or.inl rfl⟩
  | cons n rest ih =>
    intro Q P stats Q' P' stats' heq
    cases nl with
    | none =>
      rw [expandLoop_cons_none] at heq
      by_cases hmem : (alookup P n).isSome
      · rw [if_pos hmem] at heq
        exact ih Q P stats Q' P' stats' heq
      · rw [if_neg hmem] at heq
        obtain ⟨h1, h2⟩ := ih _ _ _ Q' P' stats' heq
        refine ⟨h1, ?_⟩
        rcases h2 with h | h
        · exact Or.inl h
        · exact Or.inr h
    | some lim =>
      rw [expandLoop_cons_some] at heq
      by_cases hmem : (alookup P n).isSome
      · rw [if_pos hmem] at heq
        exact ih Q P stats Q' P' stats' heq
      · rw [if_neg hmem] at heq
        by_cases hlim : lim ≤ stats.generated + 1
        · rw [if_pos hlim] at heq
          cases heq
          exact ⟨rfl, Or.inr rfl⟩
        · rw [if_neg hlim] at heq
          obtain ⟨h1, h2⟩ := ih _ _ _ Q' P' stats' heq
          refine ⟨h1, ?_⟩
          rcases h2 with h | h
          · exact Or.inl h
          · exact Or.inr h

theorem bfsLoop_limit (nl : Option Nat) :
    ∀ (fuel : Nat) (Q : List State) (P : List (State × Option State))
      (stats : SearchStats) (r : Option (List State)) (stats' : SearchStats),
      stats.found = false → stats.stopped_reason = none →
      bfsLoop nl fuel Q P stats = (r, stats') →
      stats'.stopped_reason = none ∨ (r = none ∧ stats'.found = false) := by
  intro fuel
  induction fuel with
  | zero =>
    intro Q P stats r stats' hf hr heq
    rw [bfsLoop_zero] at heq
    cases heq
    exact Or.inl hr
  | succ f ih =>
    intro Q P stats r stats' hf hr heq
    cases Q with
    | nil =>
      rw [bfsLoop_nil] at heq
      cases heq
      exact Or.inl hr
    | cons state rest =>
      rw [bfsLoop_cons] at heq
      by_cases hgoal : state = GOAL_STATE
      · rw [if_pos hgoal] at heq
        rw [Prod.mk.injEq] at heq
        obtain ⟨-, h2⟩ := heq
        left
        rw [← h2]
        exact hr
      · rw [if_neg hgoal] at heq
        rcases hde : expandLoop nl state (get_neighbors state) rest P
            { stats with max_frontier := max stats.max_frontier (rest.length + 1),
                         expanded := stats.expanded + 1 }
          with ⟨queue2, parent2, stats2⟩
        simp only [hde] at heq
        obtain ⟨hfound2, hreason2⟩ := expandLoop_stats nl state _ _ _ _ _ _ _ hde
        rcases hreason2 with hr2 | hq2
        · exact ih queue2 parent2 stats2 r stats' (by rw [hfound2]; exact hf)
            (by rw [hr2]; exact hr) heq
        · subst hq2
          right
          cases f with
          | zero =>
            rw [bfsLoop_zero] at heq
            cases heq
            exact ⟨rfl, by rw [hfound2]; exact hf⟩
          | succ f2 =>
            rw [bfsLoop_nil] at heq
            cases heq
            exact ⟨rfl, by rw [hfound2]; exact hf⟩

theorem bfs_limit_stop (start : State) (nl : Option Nat) (fuel : Nat)
    (r : Option (List State)) (stats' : SearchStats)
    (heq : bfs start nl fuel = (r, stats'))
    (hstop : stats'.stopped_reason ≠ none) :
    r = none ∧ stats'.found = false := by
  rcases bfsLoop_limit nl fuel [start] [(start, none)] initStats r stats' rfl rfl heq
    with h | h
  · exact absurd h hstop
  · exact h

theorem dfsExpand_stats (nl : Option Nat) (node_idx depth : Nat) :
    ∀ (l : List State) (nodes : List DNode) (stack : List Nat) (stats : SearchStats)
      (nodes' : List DNode) (stack' : List Nat) (stats' : SearchStats),
      dfsExpand nl node_idx depth l nodes stack stats = (nodes', stack', stats') →
      stats'.found = stats.found ∧
      (stats'.stopped_reason = stats.stopped_reason ∨ stack' = []) := by
  intro l
  induction l with
  | nil =>
    intro nodes stack stats nodes' stack' stats' heq
    rw [dfsExpand_nil] at heq
    cases heq
    exact ⟨rfl, Or.inl rfl⟩
  | cons n rest ih =>
    intro nodes stack stats nodes' stack' stats' heq
    cases nl with
    | none =>
      rw [dfsExpand_cons_none] at heq
      by_cases hpath : is_on_current_path nodes nodes.length node_idx n
      · rw [if_pos hpath] at heq
        exact ih nodes stack stats nodes' stack' stats' heq
      · rw [if_neg hpath] at heq
        obtain ⟨h1, h2⟩ := ih _ _ _ nodes' stack' stats' heq
        refine ⟨h1, ?_⟩
        rcases h2 with h | h
        · exact Or.inl h
        · exact Or.inr h
    | some lim =>
      rw [dfsExpand_cons_some] at heq
      by_cases hpath : is_on_current_path nodes nodes.length node_idx n
      · rw [if_pos hpath] at heq
        exact ih nodes stack stats nodes' stack' stats' heq
      · rw [if_neg hpath] at heq
        by_cases hlim : lim ≤ stats.generated + 1
        · rw [if_pos hlim] at heq
          cases heq
          exact ⟨rfl, Or.inr rfl⟩
        · rw [if_neg hlim] at heq
          obtain ⟨h1, h2⟩ := ih _ _ _ nodes' stack' stats' heq
          refine ⟨h1, ?_⟩
          rcases h2 with h | h
          · exact Or.inl h
          · exact Or.inr h

theorem dfsLoop_limit (nl : Option Nat) (dl : Nat) :
    ∀ (fuel : Nat) (nodes : List DNode) (stack : List Nat)
      (stats : SearchStats) (r : Option (List State)) (stats' : SearchStats),
      stats.found = false → stats.stopped_reason = none →
      dfsLoop nl dl fuel nodes stack stats = (r, stats') →
      stats'.stopped_reason = none ∨ (r = none ∧ stats'.found = false) := by
  intro fuel
  induction fuel with
  | zero =>
    intro nodes stack stats r stats' hf hr heq
    rw [dfsLoop_zero] at heq
    cases heq
    exact Or.inl hr
  | succ f ih =>
    intro nodes stack stats r stats' hf hr heq
    cases stack with
    | nil =>
      rw [dfsLoop_nil] at heq
      cases heq
      exact Or.inl hr
    | cons node_idx rest =>
      rw [dfsLoop_cons] at heq
      by_cases hgoal : (nodes.getD node_idx default).state = GOAL_STATE
      · rw [if_pos hgoal] at heq
        rw [Prod.mk.injEq] at heq
        obtain ⟨-, h2⟩ := heq
        left
        rw [← h2]
        exact hr
      · rw [if_neg hgoal] at heq
        by_cases hdl : dl ≤ (nodes.getD node_idx default).depth
        · rw [if_pos hdl] at heq
          exact ih nodes rest
            { stats with max_frontier := max stats.max_frontier (rest.length + 1) }
            r stats' hf hr heq
        · rw [if_neg hdl] at heq
          rcases hde : dfsExpand nl node_idx (nodes.getD node_idx default).depth
              (get_neighbors (nodes.getD node_idx default).state) nodes rest
              { stats with max_frontier := max stats.max_frontier (rest.length + 1),
                           expanded := stats.expanded + 1 }
            with ⟨nodes2, stack2, stats2⟩
          simp only [hde] at heq
          obtain ⟨hfound2, hreason2⟩ := dfsExpand_stats nl node_idx _ _ _ _ _ _ _ _ hde
          rcases hreason2 with hr2 | hq2
          · exact ih nodes2 stack2 stats2 r stats' (by rw [hfound2]; exact hf)
              (by rw [hr2]; exact hr) heq
          · subst hq2
            right
            cases f with
            | zero =>
              rw [dfsLoop_zero] at heq
              cases heq
              exact ⟨rfl, by rw [hfound2]; exact hf⟩
            | succ f2 =>
              rw [dfsLoop_nil] at heq
              cases heq
              exact ⟨rfl, by rw [hfound2]; exact hf⟩

theorem dfs_limit_stop (start : State) (dl : Nat) (nl : Option Nat) (fuel : Nat)
    (r : Option (List State)) (stats' : SearchStats)
    (heq : dfs_depth_limited start dl nl fuel = (r, stats'))
    (hstop : stats'.stopped_reason ≠ none) :
    r = none ∧ stats'.found = false := by
  rcases dfsLoop_limit nl dl fuel [⟨start, none, 0⟩] [0] initStats r stats' rfl rfl heq
    with h | h
  · exact absurd h hstop
  · exact h

theorem get_neighbors_ne_nil {s : State} (hs : ValidState s) : get_neighbors s ≠ [] := by
  have h2 := (moveTargets_length_cases (s.indexOf 0) hs.indexOf_zero_lt).1.1
  rw [← get_neighbors_length_eq] at h2
  intro h
  rw [h] at h2
  simp at h2

theorem bfs_nodeLimit_one (start : State) (hs : ValidState start)
    (hng : start ≠ GOAL_STATE) (fuel : Nat) :
    bfs start (some 1) (fuel + 2) =
      (none, { expanded := 1, generated := 2, max_frontier := 1, found := false,
               solution_moves := none, stopped_reason := some (nodeLimitMsg 1) }) := by
  cases hgn : get_neighbors start with
  | nil => exact absurd hgn (get_neighbors_ne_nil hs)
  | cons n1 ns =>
    have hne1 : n1 ≠ start :=
      neighbor_ne hs (by rw [hgn]; exact List.mem_cons_self _ _)
    have hlook : alookup [(start, (none : Option State))] n1 = none := by
      rw [alookup_cons_ne _ _ _ _ (fun e => hne1 e.symm)]
      rfl
    show bfsLoop (some 1) (fuel + 1 + 1) [start] [(start, none)] initStats = _
    rw [bfsLoop_cons, if_neg hng, hgn, expandLoop_cons_some, hlook]
    rw [if_neg (by simp)]
    rw [if_pos (by decide)]
    dsimp only
    rw [bfsLoop_nil]
    rfl

theorem dfs_nodeLimit_one (start : State) (hs : ValidState start)
    (hng : start ≠ GOAL_STATE) (dl : Nat) (hdl : 1 ≤ dl) (fuel : Nat) :
    dfs_depth_limited start dl (some 1) (fuel + 2) =
      (none, { expanded := 1, generated := 2, max_frontier := 1, found := false,
               solution_moves := none, stopped_reason := some (nodeLimitMsg 1) }) := by
  cases hgn : get_neighbors start with
  | nil => exact absurd hgn (get_neighbors_ne_nil hs)
  | cons n1 ns =>
    have hne1 : n1 ≠ start :=
      neighbor_ne hs (by rw [hgn]; exact List.mem_cons_self _ _)
    have hst : (([(⟨start, none, 0⟩ : DNode)] : List DNode).getD 0 default).state
        = start := rfl
    have hdp : (([(⟨start, none, 0⟩ : DNode)] : List DNode).getD 0 default).depth
        = 0 := rfl
    have hiop : is_on_current_path [(⟨start, none, 0⟩ : DNode)]
        ([(⟨start, none, 0⟩ : DNode)] : List DNode).length 0 n1 = false := by
      rw [show ([(⟨start, none, 0⟩ : DNode)] : List DNode).length = 0 + 1 from rfl]
      rw [is_on_current_path_succ, hst, if_neg (fun e => hne1 e.symm)]
      rfl
    show dfsLoop (some 1) dl (fuel + 1 + 1) [⟨start, none, 0⟩] [0] initStats = _
    rw [dfsLoop_cons, hst, hdp, if_neg hng, if_neg (by omega), hgn,
      dfsExpand_cons_some, hiop]
    rw [if_neg (by simp)]
    rw [if_pos (by decide)]
    dsimp only
    rw [dfsLoop_nil]
    rfl

/-! ### Claim theorems -/

/-- C1: for every solvable start state, if `bfs` returns a path (no limit
triggered) then the path leads from `start` to `GOAL_STATE` via single blank
moves, its length minus one equals the minimum number of moves from `start`
to the goal, `solution_moves` equals that length minus one, and no state
repeats within the returned path. -/
theorem c1_bfs_shortest_path (start : State) (node_limit : Option Nat) (fuel : Nat)
    (path : List State) (stats : SearchStats)
    (hvalid : ValidState start) (hsolv : is_solvable_5x5 start = true)
    (hrun : bfs start node_limit fuel = (some path, stats)) :
    path.head? = some start ∧ path.getLast? = some GOAL_STATE ∧
    List.Chain' (fun a b => b ∈ get_neighbors a) path ∧
    ReachN (path.length - 1) start GOAL_STATE ∧
    (∀ m, ReachN m start GOAL_STATE → path.length - 1 ≤ m) ∧
    stats.solution_moves = some (path.length - 1) ∧
    path.Nodup := by
  obtain ⟨h1, h2, h3, h4, h5, h6, h7, h8⟩ := bfs_sound start node_limit fuel path stats hrun
  exact ⟨h1, h2, h3, h5, h6, h7, h4⟩

theorem c1_bfs_shortest_path_witness :
    ValidState GOAL_STATE ∧ is_solvable_5x5 GOAL_STATE = true ∧
    bfs GOAL_STATE none 1 =
      (some [GOAL_STATE],
       { expanded := 0, generated := 1, max_frontier := 1, found := true,
         solution_moves := some 0, stopped_reason := none }) ∧
    ([GOAL_STATE].head? = some GOAL_STATE ∧ [GOAL_STATE].getLast? = some GOAL_STATE ∧
     List.Chain' (fun a b => b ∈ get_neighbors a) [GOAL_STATE] ∧
     ReachN (([GOAL_STATE] : List State).length - 1) GOAL_STATE GOAL_STATE ∧
     (∀ m, ReachN m GOAL_STATE GOAL_STATE → ([GOAL_STATE] : List State).length - 1 ≤ m) ∧
     (some 0 : Option Nat) = some (([GOAL_STATE] : List State).length - 1) ∧
     ([GOAL_STATE] : List State).Nodup) :=
  ⟨by decide, by rfl, by rfl,
   c1_bfs_shortest_path GOAL_STATE none 1 [GOAL_STATE]
     { expanded := 0, generated := 1, max_frontier := 1, found := true,
       solution_moves := some 0, stopped_reason := none }
     (by decide) (by rfl) (by rfl)⟩

/-- C2: for every start state and non-negative depth limit, if
`dfs_depth_limited` returns a path then it leads from `start` to
`GOAL_STATE`, its length minus one is at most the depth limit and its states
are pairwise distinct; and during the search a neighbor is skipped exactly
when it equals a state on the ancestor chain from the current node back to
the root, inclusive. -/
theorem c2_dfs_depth_limited_path (start : State) (depth_limit : Nat)
    (node_limit : Option Nat) (fuel : Nat) (path : List State) (stats : SearchStats)
    (hrun : dfs_depth_limited start depth_limit node_limit fuel = (some path, stats)) :
    (path.head? = some start ∧ path.getLast? = some GOAL_STATE ∧
     List.Chain' (fun a b => b ∈ get_neighbors a) path ∧
     path.length - 1 ≤ depth_limit ∧ path.Nodup) ∧
    (∀ (nodes : List DNode) (f i : Nat) (c : State),
      is_on_current_path nodes f i c = true ↔ c ∈ ancestorStates nodes f i) := by
  obtain ⟨h1, h2, h3, h4, h5, -, -⟩ :=
    dfs_depth_limited_sound start depth_limit node_limit fuel path stats hrun
  exact ⟨⟨h1, h2, h3, h5, h4⟩, fun nodes f i c => is_on_current_path_iff nodes f i c⟩

theorem c2_dfs_depth_limited_path_witness :
    dfs_depth_limited [1, 2, 3, 4, 5, 6, 7, 8, 9, 10, 11, 12, 13, 14, 15, 16, 17,
        18, 19, 20, 21, 22, 23, 0, 24] 1 none 5 =
      (some [[1, 2, 3, 4, 5, 6, 7, 8, 9, 10, 11, 12, 13, 14, 15, 16, 17, 18, 19,
          20, 21, 22, 23, 0, 24], GOAL_STATE],
       { expanded := 1, generated := 4, max_frontier := 3, found := true,
         solution_moves := some 1, stopped_reason := none }) ∧
    (([[1, 2, 3, 4, 5, 6, 7, 8, 9, 10, 11, 12, 13, 14, 15, 16, 17, 18, 19,
          20, 21, 22, 23, 0, 24], GOAL_STATE] : List State).length - 1 ≤ 1 ∧
     ([[1, 2, 3, 4, 5, 6, 7, 8, 9, 10, 11, 12, 13, 14, 15, 16, 17, 18, 19,
          20, 21, 22, 23, 0, 24], GOAL_STATE] : List State).Nodup) := by
  refine ⟨by rfl, ?_⟩
  have h := c2_dfs_depth_limited_path
    [1, 2, 3, 4, 5, 6, 7, 8, 9, 10, 11, 12, 13, 14, 15, 16, 17, 18, 19, 20, 21,
      22, 23, 0, 24] 1 none 5
    [[1, 2, 3, 4, 5, 6, 7, 8, 9, 10, 11, 12, 13, 14, 15, 16, 17, 18, 19, 20, 21,
      22, 23, 0, 24], GOAL_STATE]
    { expanded := 1, generated := 4, max_frontier := 3, found := true,
      solution_moves := some 1, stopped_reason := none } (by rfl)
  exact ⟨h.1.2.2.2.1, h.1.2.2.2.2⟩

/-- C3: for every valid board state, `get_neighbors` returns between 2 and 4
states (2 in a corner, 3 on a non-corner edge, 4 in the interior), listed in
the fixed direction order up, down, left, right restricted to in-bounds
directions; each neighbor is obtained by swapping the blank with an
orthogonally adjacent tile, and the inverse swap leads back, so the original
state is a neighbor of each of its neighbors. -/
theorem c3_get_neighbors_spec (s : State) (hs : ValidState s) :
    (2 ≤ (get_neighbors s).length ∧ (get_neighbors s).length ≤ 4) ∧
    (((s.indexOf 0 / 5 = 0 ∨ s.indexOf 0 / 5 = 4) ∧
      (s.indexOf 0 % 5 = 0 ∨ s.indexOf 0 % 5 = 4)) → (get_neighbors s).length = 2) ∧
    ((((s.indexOf 0 / 5 = 0 ∨ s.indexOf 0 / 5 = 4) ∧
       0 < s.indexOf 0 % 5 ∧ s.indexOf 0 % 5 < 4) ∨
      ((s.indexOf 0 % 5 = 0 ∨ s.indexOf 0 % 5 = 4) ∧
       0 < s.indexOf 0 / 5 ∧ s.indexOf 0 / 5 < 4)) → (get_neighbors s).length = 3) ∧
    ((0 < s.indexOf 0 / 5 ∧ s.indexOf 0 / 5 < 4 ∧
      0 < s.indexOf 0 % 5 ∧ s.indexOf 0 % 5 < 4) → (get_neighbors s).length = 4) ∧
    get_neighbors s = (dirList.filter (dirInBounds (s.indexOf 0))).map
      (fun d => swapAt s (s.indexOf 0) (dirTarget (s.indexOf 0) d)) ∧
    (∀ n ∈ get_neighbors s, ∃ j, j < 25 ∧ Adj (s.indexOf 0) j ∧
      n = swapAt s (s.indexOf 0) j ∧ s ∈ get_neighbors n) := by
  have hzi := hs.indexOf_zero_lt
  obtain ⟨hA, hB, hC, hD⟩ := moveTargets_length_cases (s.indexOf 0) hzi
  rw [← get_neighbors_length_eq] at hA hB hC hD
  exact ⟨hA, hB, hC, hD, get_neighbors_dir_form s, get_neighbors_spec hs⟩

theorem c3_get_neighbors_spec_witness :
    ValidState GOAL_STATE ∧
    (2 ≤ (get_neighbors GOAL_STATE).length ∧ (get_neighbors GOAL_STATE).length ≤ 4) :=
  ⟨by decide, (c3_get_neighbors_spec GOAL_STATE (by decide)).1⟩

/-- C4: `inversion_count` equals the number of position pairs i < j holding
non-blank tiles with the tile at i larger than the tile at j, and
`is_solvable_5x5` returns true exactly when the inversion count is even. -/
theorem c4_inversions_and_solvability (s : State) :
    inversion_count s = pairInversions s ∧
    (is_solvable_5x5 s = true ↔ inversion_count s % 2 = 0) := by
  refine ⟨inversion_count_eq_pairInversions s, ?_⟩
  unfold is_solvable_5x5
  exact decide_eq_true_iff

/-- C5 counterexample: moving the blank vertically can change the inversion
count, so `inversion_count` is not literally invariant under moves; at the
goal state the up-move has inversion count 4 while the goal has 0. -/
theorem c5_counterexample :
    ¬ (∀ s : State, ValidState s → ∀ n ∈ get_neighbors s,
        inversion_count n = inversion_count s) := by
  intro h
  have h2 := h GOAL_STATE (by decide) (swapAt GOAL_STATE 24 19) (by decide)
  exact absurd h2 (by decide)

/-- C5 (amended): the parity of `inversion_count` is invariant under
`get_neighbors` moves, and the goal state has inversion count 0 (so it is
solvable). -/
theorem c5_inversion_parity_invariant (s n : State) (hs : ValidState s)
    (hn : n ∈ get_neighbors s) :
    inversion_count n % 2 = inversion_count s % 2 ∧
    inversion_count GOAL_STATE = 0 :=
  ⟨inversion_count_parity_neighbor hs hn, by decide⟩

theorem c5_inversion_parity_invariant_witness :
    ValidState GOAL_STATE ∧ swapAt GOAL_STATE 24 19 ∈ get_neighbors GOAL_STATE ∧
    (inversion_count (swapAt GOAL_STATE 24 19) % 2 = inversion_count GOAL_STATE % 2 ∧
     inversion_count GOAL_STATE = 0) :=
  ⟨by decide, by decide,
   c5_inversion_parity_invariant GOAL_STATE (swapAt GOAL_STATE 24 19)
     (by decide) (by decide)⟩

/-- C6: `parse_state_from_csv` fails exactly when the token count differs
from 25, a token is not an integer, or the parsed values are not a
permutation of 0..24; the bad-tile-set error separately carries the missing
values, the out-of-range values, and a duplicate flag; success returns the
parsed integers in input order, a permutation of 0..24. -/
theorem c6_parse_state_spec (text : String) :
    (∀ nums, parse_state_from_csv text = Except.ok nums ↔
      ((tokensOf text.toList).length = 25 ∧
        parseAll (tokensOf text.toList) = some nums ∧ nums.Perm rangeInts)) ∧
    (∀ n, parse_state_from_csv text = Except.error (ParseErr.wrongCount n) ↔
      ((tokensOf text.toList).length ≠ 25 ∧ n = (tokensOf text.toList).length)) ∧
    (parse_state_from_csv text = Except.error ParseErr.notInteger ↔
      ((tokensOf text.toList).length = 25 ∧ parseAll (tokensOf text.toList) = none)) ∧
    (∀ m e d, parse_state_from_csv text = Except.error (ParseErr.badTileSet m e d) ↔
      ((tokensOf text.toList).length = 25 ∧
        ∃ ns, parseAll (tokensOf text.toList) = some ns ∧ ¬ ns.Perm rangeInts ∧
          m = missingOf ns ∧ e = extraOf ns ∧ (d = true ↔ ¬ ns.Nodup))) :=
  ⟨fun nums => parse_ok_iff text nums,
   fun n => parse_wrongCount_iff text n,
   parse_notInteger_iff text,
   fun m e d => parse_badTileSet_iff text m e d⟩

/-- C7: with a node limit supplied, whenever the limit fires (the run's
`stopped_reason` reports the node limit) the search returns no path with
`found = false`; in particular with `node_limit = 1` on a valid non-goal
start, BFS and depth-limited DFS (depth limit at least 1) return `found =
false`, a `stopped_reason` naming the node limit, and a generated count of
2, just above the limit. -/
theorem c7_node_limit (start : State) (lim dl fuel : Nat)
    (hvalid : ValidState start) (hng : start ≠ GOAL_STATE) (hdl : 1 ≤ dl) :
    (∀ fuel2 r st, bfs start (some lim) fuel2 = (r, st) →
      st.stopped_reason = some (nodeLimitMsg lim) → r = none ∧ st.found = false) ∧
    (∀ fuel2 r st, dfs_depth_limited start dl (some lim) fuel2 = (r, st) →
      st.stopped_reason = some (nodeLimitMsg lim) → r = none ∧ st.found = false) ∧
    bfs start (some 1) (fuel + 2) =
      (none, { expanded := 1, generated := 2, max_frontier := 1, found := false,
               solution_moves := none, stopped_reason := some (nodeLimitMsg 1) }) ∧
    dfs_depth_limited start dl (some 1) (fuel + 2) =
      (none, { expanded := 1, generated := 2, max_frontier := 1, found := false,
               solution_moves := none, stopped_reason := some (nodeLimitMsg 1) }) := by
  refine ⟨?_, ?_, bfs_nodeLimit_one start hvalid hng fuel,
    dfs_nodeLimit_one start hvalid hng dl hdl fuel⟩
  · intro fuel2 r st heq hstop
    exact bfs_limit_stop start (some lim) fuel2 r st heq (by rw [hstop]; simp)
  · intro fuel2 r st heq hstop
    exact dfs_limit_stop start dl (some lim) fuel2 r st heq (by rw [hstop]; simp)

theorem c7_node_limit_witness :
    ValidState [1, 2, 3, 4, 5, 6, 7, 8, 9, 10, 11, 12, 13, 14, 15, 16, 17, 18, 19,
      20, 21, 22, 23, 0, 24] ∧
    [1, 2, 3, 4, 5, 6, 7, 8, 9, 10, 11, 12, 13, 14, 15, 16, 17, 18, 19,
      20, 21, 22, 23, 0, 24] ≠ GOAL_STATE ∧
    bfs [1, 2, 3, 4, 5, 6, 7, 8, 9, 10, 11, 12, 13, 14, 15, 16, 17, 18, 19,
        20, 21, 22, 23, 0, 24] (some 1) 2 =
      (none, { expanded := 1, generated := 2, max_frontier := 1, found := false,
               solution_moves := none, stopped_reason := some (nodeLimitMsg 1) }) ∧
    dfs_depth_limited [1, 2, 3, 4, 5, 6, 7, 8, 9, 10, 11, 12, 13, 14, 15, 16, 17,
        18, 19, 20, 21, 22, 23, 0, 24] 1 (some 1) 2 =
      (none, { expanded := 1, generated := 2, max_frontier := 1, found := false,
               solution_moves := none, stopped_reason := some (nodeLimitMsg 1) }) := by
  refine ⟨by decide, by decide, ?_, ?_⟩
  · exact (c7_node_limit _ 1 1 0 (by decide) (by decide) (by decide)).2.2.1
  · exact (c7_node_limit _ 1 1 0 (by decide) (by decide) (by decide)).2.2.2

/-- C8: when the start state is the goal, BFS returns the one-element path
holding only the goal, with `solution_moves = 0`, `expanded = 0` and
`found = true` (the goal test happens before any expansion). -/
theorem c8_bfs_at_goal (node_limit : Option Nat) (fuel : Nat) :
    bfs GOAL_STATE node_limit (fuel + 1) =
      (some [GOAL_STATE],
       { expanded := 0, generated := 1, max_frontier := 1, found := true,
         solution_moves := some 0, stopped_reason := none }) := by
  show bfsLoop node_limit (fuel + 1) [GOAL_STATE] [(GOAL_STATE, none)] initStats = _
  rw [bfsLoop_cons, if_pos rfl]
  rfl

/-- C9: neighbor generation preserves the board-state invariant (each of
0..24 appearing exactly once), and consequently every state on any path
returned by BFS or depth-limited DFS from a valid start is a valid board
state. -/
theorem c9_valid_states_preserved (s : State) (hs : ValidState s) :
    (∀ n ∈ get_neighbors s, ValidState n) ∧
    (∀ nl fuel path stats, bfs s nl fuel = (some path, stats) →
      ∀ x ∈ path, ValidState x) ∧
    (∀ dl nl fuel path stats, dfs_depth_limited s dl nl fuel = (some path, stats) →
      ∀ x ∈ path, ValidState x) := by
  refine ⟨fun n hn => neighbor_valid hs hn, ?_, ?_⟩
  · intro nl fuel path stats hrun
    obtain ⟨h1, -, h3, -⟩ := bfs_sound s nl fuel path stats hrun
    exact chain_valid path s h1 hs h3
  · intro dl nl fuel path stats hrun
    obtain ⟨h1, -, h3, -⟩ := dfs_depth_limited_sound s dl nl fuel path stats hrun
    exact chain_valid path s h1 hs h3

theorem c9_valid_states_preserved_witness :
    ValidState GOAL_STATE ∧ ValidState (swapAt GOAL_STATE 24 19) :=
  ⟨by decide,
   (c9_valid_states_preserved GOAL_STATE (by decide)).1 (swapAt GOAL_STATE 24 19)
     (by decide)⟩

/-- C10: `parse_state_from_csv` drops empty tokens before counting, so any
input whose comma-separated tokens, after stripping whitespace and removing
empty tokens, are 25 integers forming a permutation of 0..24 is accepted —
including inputs with a leading comma, a trailing comma, or doubled
commas. -/
theorem c10_parse_ignores_empty_tokens (text : String) (nums : List Int)
    (hlen : (tokensOf text.toList).length = 25)
    (hparse : parseAll (tokensOf text.toList) = some nums)
    (hperm : nums.Perm rangeInts) :
    parse_state_from_csv text = Except.ok nums :=
  (parse_ok_iff text nums).mpr ⟨hlen, hparse, hperm⟩

theorem c10_parse_ignores_empty_tokens_witness :
    parse_state_from_csv
        ",1,2,3,4,5,6,7,8,9,10,11,12,13,14,15,16,17,18,19,20,21,22,23,24,0" =
      Except.ok [1, 2, 3, 4, 5, 6, 7, 8, 9, 10, 11, 12, 13, 14, 15, 16, 17, 18, 19,
        20, 21, 22, 23, 24, 0] ∧
    parse_state_from_csv
        "1,2,3,4,5,6,7,8,9,10,11,12,13,14,15,16,17,18,19,20,21,22,23,24,0," =
      Except.ok [1, 2, 3, 4, 5, 6, 7, 8, 9, 10, 11, 12, 13, 14, 15, 16, 17, 18, 19,
        20, 21, 22, 23, 24, 0] ∧
    parse_state_from_csv
        "1,2,,3,4,5,6,7,8,9,10,11,12,13,14,15,16,17,18,19,20,21,22,23,24,,0" =
      Except.ok [1, 2, 3, 4, 5, 6, 7, 8, 9, 10, 11, 12, 13, 14, 15, 16, 17, 18, 19,
        20, 21, 22, 23, 24, 0] :=
  ⟨c10_parse_ignores_empty_tokens _ _ (by rfl) (by rfl) (by decide),
   c10_parse_ignores_empty_tokens _ _ (by rfl) (by rfl) (by decide),
   c10_parse_ignores_empty_tokens _ _ (by rfl) (by rfl) (by decide)⟩

end Puzzle
